import Mathlib

/-!
Verification development for the sustainlyticsscraper repository.

The repository consists of three scripts:
  * `gresb_scraper.py`  — regex cascade extracting GRESB scores/stars from page text
  * `scraper.py`        — Sustainalytics ESG score / risk-level extraction
  * `logo_extractor.py` — multi-provider logo fetch cascade with PNG normalization

The extraction heuristics are shallowly embedded below.  Python's `re.search` /
`re.findall` are modelled by a backtracking matcher over `List Char` that follows
Python's leftmost-match, depth-first backtracking discipline for the constructs the
patterns actually use (literals, single-character classes, greedy/lazy stars over
classes, bounded repetition, alternation, optional groups, one capture group, and
the word-boundary assertion).  The matcher is fuel-indexed so that it is structurally
recursive (hence kernel-computable); `mrunF_adequate` below shows the canonical fuel
bound used by the wrappers is always sufficient, so fuel is an implementation detail.

Character classes `\d`, `\s`, `\w` are modelled at their ASCII meaning; the pages
scraped are ASCII-relevant here and no claim depends on non-ASCII digit/space
membership.
-/

namespace Scraper

/-- ASCII decimal digit, Python `\d` (ASCII fragment); `48..57` are the code
points of `'0'..'9'`. -/
def isDig (c : Char) : Bool := 48 ≤ c.toNat && c.toNat ≤ 57

/-- Python `\s` (ASCII fragment): space, tab, newline, carriage return, vertical
tab, form feed (code points 32, 9, 10, 13, 11, 12). -/
def wsp (c : Char) : Bool :=
  c.toNat = 32 || c.toNat = 9 || c.toNat = 10 || c.toNat = 13 ||
  c.toNat = 11 || c.toNat = 12

/-- The character class `[:\s]` used by the score patterns (`':'` is 58). -/
def wspColon (c : Char) : Bool := wsp c || c.toNat = 58

/-- Python `\w` (ASCII fragment), used by the `\b` assertion; `97..122`, `65..90`
and `95` are the code points of `'a'..'z'`, `'A'..'Z'` and `'_'`. -/
def isWordC (c : Char) : Bool :=
  isDig c || (97 ≤ c.toNat && c.toNat ≤ 122) || (65 ≤ c.toNat && c.toNat ≤ 90) ||
  c.toNat = 95

/-- ASCII lower-casing, for `re.IGNORECASE` literal comparison. -/
def lowerA (c : Char) : Char :=
  if 65 ≤ c.toNat && c.toNat ≤ 90 then Char.ofNat (c.toNat + 32) else c

/-- Case-insensitive character equality (ASCII), for literals under `re.IGNORECASE`. -/
def eqCI (a b : Char) : Bool := lowerA a = lowerA b

/-- Items of the regex fragment used by the scrapers.  A pattern is a `List RItem`.
`grp` is the (single) capturing group of a pattern; `gbeg`/`gend` are the internal
markers it expands to during matching. -/
inductive RItem where
  | lit    : Char → RItem                      -- case-sensitive literal
  | litCI  : Char → RItem                      -- literal under IGNORECASE
  | cls    : (Char → Bool) → RItem             -- single character from a class
  | starG  : (Char → Bool) → RItem             -- greedy `X*` over a class
  | starL  : (Char → Bool) → RItem             -- lazy `X*?` over a class
  | repg   : Nat → Nat → (Char → Bool) → RItem -- greedy `X{lo,hi}` over a class
  | opt    : List RItem → RItem                -- greedy `(?:...)?`
  | alt    : List RItem → List RItem → RItem   -- `(?:...|...)`
  | grp    : List RItem → RItem                -- the capturing group `(...)`
  | gbeg   : RItem
  | gend   : RItem
  | wb     : RItem                             -- `\b`

/-- Structural weight of a pattern; used by the fuel-adequacy argument. -/
def sizeL : List RItem → Nat
  | [] => 0
  | .opt r :: rest => 1 + sizeL r + sizeL rest
  | .alt a b :: rest => 1 + sizeL a + sizeL b + sizeL rest
  | .grp r :: rest => 3 + sizeL r + sizeL rest
  | _ :: rest => 1 + sizeL rest

/-- Weight of a pattern is additive under concatenation (stated as a definition
so it is available to the termination proofs of the predicates below). -/
def sizeL_append : ∀ a b : List RItem, sizeL (a ++ b) = sizeL a + sizeL b := by
  intro a
  induction a with
  | nil => intro b; simp [sizeL]
  | cons i rest ih =>
    intro b
    cases i <;> simp [sizeL, List.cons_append, ih] <;> omega

/-- Result of one match attempt: `out` = fuel exhausted, `fail` = no match here,
`ok cap prev rest` = matched, capturing `cap`, with `prev` the last consumed
character and `rest` the text after the match. -/
inductive MRes where
  | out  : MRes
  | fail : MRes
  | ok   : List Char → Option Char → List Char → MRes
  deriving DecidableEq

/-- First-success combinator that propagates fuel exhaustion. -/
def MRes.orElseR (a : MRes) (b : Unit → MRes) : MRes :=
  match a with
  | .ok c p r => .ok c p r
  | .fail => b ()
  | .out => .out

def isWordO : Option Char → Bool
  | none => false
  | some c => isWordC c

def isWordNext : List Char → Bool
  | [] => false
  | x :: _ => isWordC x

/-- The backtracking matcher.  Arguments: fuel, remaining pattern items, previous
character (for `\b`), remaining text, group accumulator (reversed, `some` while
inside the capturing group), finished capture.  The order in which alternatives are
tried reproduces Python's depth-first backtracking: greedy quantifiers consume as
much as possible first, lazy ones as little as possible, alternations try the left
branch first, and a decision made later in the pattern is revised before an earlier
one. -/
def mrunF : Nat → List RItem → Option Char → List Char → Option (List Char) →
    Option (List Char) → MRes
  | 0, _, _, _, _, _ => .out
  | _ + 1, [], prev, s, _, done => .ok (done.getD []) prev s
  | f + 1, .lit c :: rest, _, s, acc, done =>
    match s with
    | [] => .fail
    | x :: t =>
      if x = c then mrunF f rest (some x) t (acc.map (x :: ·)) done else .fail
  | f + 1, .litCI c :: rest, _, s, acc, done =>
    match s with
    | [] => .fail
    | x :: t =>
      if eqCI x c then mrunF f rest (some x) t (acc.map (x :: ·)) done else .fail
  | f + 1, .cls p :: rest, _, s, acc, done =>
    match s with
    | [] => .fail
    | x :: t =>
      if p x then mrunF f rest (some x) t (acc.map (x :: ·)) done else .fail
  | f + 1, .starG p :: rest, prev, s, acc, done =>
    match s with
    | [] => mrunF f rest prev [] acc done
    | x :: t =>
      if p x then
        MRes.orElseR (mrunF f (.starG p :: rest) (some x) t (acc.map (x :: ·)) done)
          (fun _ => mrunF f rest prev (x :: t) acc done)
      else mrunF f rest prev (x :: t) acc done
  | f + 1, .starL p :: rest, prev, s, acc, done =>
    match s with
    | [] => mrunF f rest prev [] acc done
    | x :: t =>
      MRes.orElseR (mrunF f rest prev (x :: t) acc done)
        (fun _ =>
          if p x then mrunF f (.starL p :: rest) (some x) t (acc.map (x :: ·)) done
          else .fail)
  | f + 1, .repg lo hi p :: rest, prev, s, acc, done =>
    match hi, s with
    | 0, _ => if lo = 0 then mrunF f rest prev s acc done else .fail
    | _ + 1, [] => if lo = 0 then mrunF f rest prev [] acc done else .fail
    | h + 1, x :: t =>
      if p x then
        MRes.orElseR (mrunF f (.repg (lo - 1) h p :: rest) (some x) t (acc.map (x :: ·)) done)
          (fun _ => if lo = 0 then mrunF f rest prev (x :: t) acc done else .fail)
      else if lo = 0 then mrunF f rest prev (x :: t) acc done else .fail
  | f + 1, .opt r :: rest, prev, s, acc, done =>
    MRes.orElseR (mrunF f (r ++ rest) prev s acc done)
      (fun _ => mrunF f rest prev s acc done)
  | f + 1, .alt a b :: rest, prev, s, acc, done =>
    MRes.orElseR (mrunF f (a ++ rest) prev s acc done)
      (fun _ => mrunF f (b ++ rest) prev s acc done)
  | f + 1, .grp r :: rest, prev, s, acc, done =>
    mrunF f (.gbeg :: (r ++ .gend :: rest)) prev s acc done
  | f + 1, .gbeg :: rest, prev, s, _, done =>
    mrunF f rest prev s (some []) done
  | f + 1, .gend :: rest, prev, s, acc, done =>
    mrunF f rest prev s none
      (match acc with | some l => some l.reverse | none => done)
  | f + 1, .wb :: rest, prev, s, acc, done =>
    if isWordO prev != isWordNext s then mrunF f rest prev s acc done else .fail

/-- Canonical fuel: enough (by `mrunF_adequate`) for every pattern of weight below
198 — all embedded patterns are far smaller. -/
def patFuel (s : List Char) : Nat := (s.length + 1) * 200

/-- One match attempt at the current position, with the canonical fuel. -/
def runPat (items : List RItem) (prev : Option Char) (s : List Char) : MRes :=
  mrunF (patFuel s) items prev s none none

/-- `re.search` starting at the current position: scan left to right, return the
first position where the pattern matches (capture, last consumed char, rest). -/
def searchText (items : List RItem) :
    Option Char → List Char → Option (List Char × Option Char × List Char)
  | prev, s =>
    match runPat items prev s with
    | .ok c p r => some (c, p, r)
    | _ =>
      match s with
      | [] => none
      | x :: t => searchText items (some x) t

/-- `re.search(pattern, text)`, returning `group(1)` plus the match context. -/
def search (items : List RItem) (text : List Char) :
    Option (List Char × Option Char × List Char) :=
  searchText items none text

/-- `re.findall`: non-overlapping matches scanning left to right, resuming after
each match end (bumping one character after an empty match, as Python does).
The fuel `text.length + 1` always suffices since every iteration strictly
shortens the remaining text. -/
def findallTextF (items : List RItem) : Nat → Option Char → List Char → List (List Char)
  | 0, _, _ => []
  | f + 1, prev, s =>
    match searchText items prev s with
    | none => []
    | some (cap, p, rest) =>
      if rest.length < s.length then cap :: findallTextF items f p rest
      else
        match rest with
        | [] => [cap]
        | x :: t => cap :: findallTextF items f (some x) t

def findall (items : List RItem) (text : List Char) : List (List Char) :=
  findallTextF items (text.length + 1) none text

/-- Python `int()` on a digit string (the captures fed to it are digit-only). -/
def toNatD (l : List Char) : Nat :=
  l.foldl (fun n c => n * 10 + (c.toNat - 48)) 0

/-- Python `float()` on the decimal captures produced by the score patterns,
modelled exactly: the capture `d₁…dₐ.f₁…fₖ` is represented as the scaled pair
`(n, k)` with value `n / 10^k`.  The comparisons the source performs on the float
(`0 <= score <= 100`, truthiness) are decided exactly on this representation, so
binary-float rounding cannot change any decision the code makes on these shapes. -/
def parseDec (l : List Char) : Nat × Nat :=
  let i := l.takeWhile (· ≠ '.')
  let fr := (l.dropWhile (· ≠ '.')).drop 1
  (toNatD (i ++ fr), fr.length)

/-- The rational value of a scaled decimal, for specification-level statements. -/
def decVal (d : Nat × Nat) : ℚ := (d.1 : ℚ) / 10 ^ d.2

/-- Case-insensitive literal string (IGNORECASE patterns). -/
def strCI (s : String) : List RItem := s.toList.map RItem.litCI

/-- Case-sensitive literal string. -/
def strL (s : String) : List RItem := s.toList.map RItem.lit

/-! ## GRESB rating extraction (`gresb_scraper.py`, `GRESBScraper.extract_gresb_rating`)

The five score patterns and four star patterns, in declared order, all compiled
with `re.IGNORECASE`:
```
score: GRESB\s*(?:score|rating)[\s:]*(\d{1,3})
       scored?\s*(\d{1,3})\s*(?:out of 100)?\s*in\s*GRESB
       (\d{1,3})/100\s*GRESB
       GRESB.*?(\d{1,3})\s*(?:points|score)
       achieved?\s*(\d{1,3})\s*in\s*(?:the\s*)?GRESB
stars: (\d)\s*(?:star|★)\s*GRESB
       GRESB\s*(\d)\s*(?:star|★)
       achieved?\s*(\d)\s*stars?\s*in\s*GRESB
       (\d)-star\s*(?:GRESB\s*)?rating
```
-/

/-- The `.` class (no DOTALL): any character except newline (code point 10). -/
def notNL (c : Char) : Bool := c.toNat != 10

def sp1 : List RItem :=
  strCI "GRESB" ++ [.starG wsp] ++ [.alt (strCI "score") (strCI "rating")] ++
  [.starG wspColon] ++ [.grp [.repg 1 3 isDig]]

def sp2 : List RItem :=
  strCI "score" ++ [.opt [.litCI 'd']] ++ [.starG wsp] ++ [.grp [.repg 1 3 isDig]] ++
  [.starG wsp] ++ [.opt (strCI "out of 100")] ++ [.starG wsp] ++ strCI "in" ++
  [.starG wsp] ++ strCI "GRESB"

def sp3 : List RItem :=
  [.grp [.repg 1 3 isDig]] ++ [.lit '/'] ++ strCI "100" ++ [.starG wsp] ++ strCI "GRESB"

def sp4 : List RItem :=
  strCI "GRESB" ++ [.starL notNL] ++ [.grp [.repg 1 3 isDig]] ++ [.starG wsp] ++
  [.alt (strCI "points") (strCI "score")]

def sp5 : List RItem :=
  strCI "achieve" ++ [.opt [.litCI 'd']] ++ [.starG wsp] ++ [.grp [.repg 1 3 isDig]] ++
  [.starG wsp] ++ strCI "in" ++ [.starG wsp] ++ [.opt (strCI "the" ++ [.starG wsp])] ++
  strCI "GRESB"

def score_patterns : List (List RItem) := [sp1, sp2, sp3, sp4, sp5]

def st1 : List RItem :=
  [.grp [.cls isDig]] ++ [.starG wsp] ++ [.alt (strCI "star") [.lit '★']] ++
  [.starG wsp] ++ strCI "GRESB"

def st2 : List RItem :=
  strCI "GRESB" ++ [.starG wsp] ++ [.grp [.cls isDig]] ++ [.starG wsp] ++
  [.alt (strCI "star") [.lit '★']]

def st3 : List RItem :=
  strCI "achieve" ++ [.opt [.litCI 'd']] ++ [.starG wsp] ++ [.grp [.cls isDig]] ++
  [.starG wsp] ++ strCI "star" ++ [.opt [.litCI 's']] ++ [.starG wsp] ++ strCI "in" ++
  [.starG wsp] ++ strCI "GRESB"

def st4 : List RItem :=
  [.grp [.cls isDig]] ++ [.lit '-'] ++ strCI "star" ++ [.starG wsp] ++
  [.opt (strCI "GRESB" ++ [.starG wsp])] ++ strCI "rating"

def star_patterns : List (List RItem) := [st1, st2, st3, st4]

/-- The score cascade: for each pattern in order, `re.search`; on a match, accept
`int(group(1))` only if `0 <= score <= 100`, otherwise fall through to the next
pattern (`extract_gresb_rating`, score loop). -/
def firstScore (text : List Char) : List (List RItem) → Option Nat
  | [] => none
  | p :: ps =>
    match search p text with
    | some (cap, _, _) =>
      let score := toNatD cap
      if 0 ≤ score ∧ score ≤ 100 then some score else firstScore text ps
    | none => firstScore text ps

/-- The star cascade: accept `int(group(1))` only if `1 <= stars <= 5`. -/
def firstStars (text : List Char) : List (List RItem) → Option Nat
  | [] => none
  | p :: ps =>
    match search p text with
    | some (cap, _, _) =>
      let stars := toNatD cap
      if 1 ≤ stars ∧ stars ≤ 5 then some stars else firstStars text ps
    | none => firstStars text ps

structure GresbInfo where
  score : Option Nat
  stars : Option Nat
  deriving DecidableEq

/-- `GRESBScraper.extract_gresb_rating` (the `year`/`ranking`/`other_ratings`
fields are never assigned by the source and are omitted). -/
def extract_gresb_rating (text : List Char) : GresbInfo :=
  { score := firstScore text score_patterns
    stars := firstStars text star_patterns }

/-! ## GRESB per-company pipeline (`scrape_company` / `scrape_all`)

Pages are fetched by Selenium; we model the fetch as an oracle
`page : String → Option (List Char)` where `none` stands for a timeout or any
other per-page error (`scrape_page` returns `None` in those cases). -/

structure Company where
  name : String
  urls : List String

structure CompanyResult where
  company : String
  gresb_score : Option Nat
  gresb_stars : Option Nat
  source_url : Option String
  deriving DecidableEq

/-- Python truthiness of an optional int field, as used by
`any([gresb_info.get('score'), gresb_info.get('stars')])`. -/
def truthyNat : Option Nat → Bool
  | none => false
  | some n => n ≠ 0

/-- The URL loop of `scrape_company`: first URL whose page yields a truthy score
or star rating wins; `none` pages (timeouts) are skipped. -/
def tryUrls (page : String → Option (List Char)) : List String → Option (GresbInfo × String)
  | [] => none
  | u :: us =>
    match page u with
    | some text =>
      let info := extract_gresb_rating text
      if truthyNat info.score || truthyNat info.stars then some (info, u)
      else tryUrls page us
    | none => tryUrls page us

/-- `GRESBScraper.scrape_company` for a company present in the database: the
result record always exists; rating fields stay `none` when no URL matched. -/
def scrape_company (page : String → Option (List Char)) (c : Company) : CompanyResult :=
  match tryUrls page c.urls with
  | some (info, u) =>
    { company := c.name, gresb_score := info.score, gresb_stars := info.stars
      source_url := some u }
  | none =>
    { company := c.name, gresb_score := none, gresb_stars := none, source_url := none }

/-- `GRESBScraper.scrape_all`: every company in the database is processed and
contributes exactly one record to `self.results`. -/
def scrape_all (page : String → Option (List Char)) (cs : List Company) :
    List CompanyResult :=
  cs.map (scrape_company page)

/-! ## Sustainalytics extraction (`scraper.py`, `scrape_sustainalytics`)

Method 1 (CSS-selector element search) is an external Selenium interaction and is
out of scope; Method 2 below runs when it found nothing.  The patterns are
compiled without flags (case-sensitive):
```
ESG Risk Rating[:\s]+(\d+\.?\d*)
Risk Rating[:\s]+(\d+\.?\d*)
Score[:\s]+(\d+\.?\d*)
\b((?:[0-4]?[0-9]|50)(?:\.\d{1,2})?)\b
```
-/

def numGrp : List RItem :=
  [.grp [.cls isDig, .starG isDig, .opt [.lit '.'], .starG isDig]]

def pp1 : List RItem := strL "ESG Risk Rating" ++ [.cls wspColon, .starG wspColon] ++ numGrp
def pp2 : List RItem := strL "Risk Rating" ++ [.cls wspColon, .starG wspColon] ++ numGrp
def pp3 : List RItem := strL "Score" ++ [.cls wspColon, .starG wspColon] ++ numGrp

def d04 (c : Char) : Bool := 48 ≤ c.toNat && c.toNat ≤ 52

/-- Body of the catch-all capture `(?:[0-4]?[0-9]|50)(?:\.\d{1,2})?`. -/
def ccBody : List RItem :=
  [.alt [.opt [.cls d04], .cls isDig] [.lit '5', .lit '0'],
   .opt [.lit '.', .repg 1 2 isDig]]

def pp4 : List RItem := [.wb, .grp ccBody, .wb]

def sustain_score_patterns : List (List RItem) := [pp1, pp2, pp3, pp4]

/-- Python truthiness of the running `result['ESG_Score']` float (`0.0` is falsy):
the value `n / 10^k` is falsy exactly when `n = 0`. -/
def truthyDec : Option (Nat × Nat) → Bool
  | none => false
  | some d => d.1 ≠ 0

/-- The inner `for match in matches` loop: first capture whose value passes
`0 <= score <= 100` (values are `float(match)`; `n / 10^k ≤ 100` iff
`n ≤ 100 * 10^k`, and `0 ≤ n / 10^k` always holds for these captures). -/
def firstInRange : List (List Char) → Option (Nat × Nat)
  | [] => none
  | m :: ms =>
    let score := parseDec m
    if 0 ≤ score.1 ∧ score.1 ≤ 100 * 10 ^ score.2 then some score else firstInRange ms

/-- The pattern loop of Method 2: each pattern's `findall` may overwrite the
running value with its first in-range capture; the loop breaks as soon as the
running value is truthy (so a `0.0` does not stop the cascade — faithful to the
source's `if result['ESG_Score']: break`). -/
def scoreLoop (text : List Char) : List (List RItem) → Option (Nat × Nat) → Option (Nat × Nat)
  | [], st => st
  | p :: ps, st =>
    let st' := match firstInRange (findall p text) with
               | some v => some v
               | none => st
    if truthyDec st' then st' else scoreLoop text ps st'

/-- `ESG_Score` produced by Method 2 of `scrape_sustainalytics` on the page text. -/
def extractSustainScore (text : List Char) : Option (Nat × Nat) :=
  scoreLoop text sustain_score_patterns none

/-- Python substring membership `needle in hay`. -/
def containsSub (needle : List Char) : List Char → Bool
  | [] => needle.isEmpty
  | x :: t => needle.isPrefixOf (x :: t) || containsSub needle t

def risk_keywords : List (List Char) :=
  ["Negligible".toList, "Low".toList, "Medium".toList, "High".toList, "Severe".toList]

/-- The risk-level loop of `scrape_sustainalytics`: the first keyword of the
declared vocabulary that occurs (case-sensitively) anywhere in the page text. -/
def riskLevel (text : List Char) : Option (List Char) :=
  risk_keywords.find? (fun r => containsSub r text)

/-- Modelled from the spec (refinement comparison only, not from the source):
"first keyword found in text order wins" — scan the text left to right and return
the first position where some risk keyword starts (earliest occurrence in the
text; at equal positions the vocabulary order breaks ties). -/
def spec_riskFirstInTextOrder : List Char → Option (List Char)
  | [] => none
  | x :: t =>
    match risk_keywords.find? (fun r => r.isPrefixOf (x :: t)) with
    | some r => some r
    | none => spec_riskFirstInTextOrder t

/-! ## Logo pipeline (`logo_extractor.py`)

The four providers are indexed in cascade order 0 = Clearbit, 1 = Logo.dev,
2 = Brandfetch, 3 = Google Favicons.  HTTP fetches and PIL are external: a
`fetch` oracle returns the payload bytes a provider's `fetch_from_*` helper
returns (already `none` for non-200 status, exceptions, or — for Google
Favicons — payloads of at most 1000 bytes), and a `process` oracle abstracts
`process_image`'s outcome on given bytes.  The embedding additionally records
which providers were invoked and which byte payloads reached `process_image`,
the observations the cascade claims are about. -/

structure LogoEnv where
  fetch : Nat → Option (List Nat)
  process : List Nat → Option String

structure LogoOutcome where
  success : Option (Nat × List Nat × String)
  invoked : List Nat
  processedCalls : List (Nat × List Nat)
  deriving DecidableEq

/-- The provider loop of `LogoExtractor.extract_logo`: stop at the first provider
whose fetch returns bytes that `process_image` successfully saves; a fetch
failure or a processing failure falls through to the next provider. -/
def extract_logo_over (env : LogoEnv) : List Nat → LogoOutcome
  | [] => { success := none, invoked := [], processedCalls := [] }
  | i :: is =>
    match env.fetch i with
    | some b =>
      match env.process b with
      | some path =>
        { success := some (i, b, path), invoked := [i], processedCalls := [(i, b)] }
      | none =>
        let o := extract_logo_over env is
        { success := o.success, invoked := i :: o.invoked
          processedCalls := (i, b) :: o.processedCalls }
    | none =>
      let o := extract_logo_over env is
      { success := o.success, invoked := i :: o.invoked
        processedCalls := o.processedCalls }

def providerOrder : List Nat := [0, 1, 2, 3]

def extract_logo (env : LogoEnv) : LogoOutcome :=
  extract_logo_over env providerOrder

/-- A provider attempt fails when the fetch yields nothing or processing the
fetched bytes fails. -/
def attemptFails (env : LogoEnv) (i : Nat) : Prop :=
  match env.fetch i with
  | none => True
  | some b => env.process b = none

instance (env : LogoEnv) (i : Nat) : Decidable (attemptFails env i) := by
  unfold attemptFails
  exact match env.fetch i with
  | none => inferInstanceAs (Decidable True)
  | some _ => inferInstanceAs (Decidable (_ = none))

/-- `LogoExtractor.extract_multiple`: every company is processed in turn;
successes and failures are appended to the `downloaded` / `failed` lists and the
loop always continues to the next company. -/
def extract_multiple (envOf : String → LogoEnv) :
    List String → List String × List String
  | [] => ([], [])
  | c :: cs =>
    if (extract_logo (envOf c)).success.isSome
    then (c :: (extract_multiple envOf cs).1, (extract_multiple envOf cs).2)
    else ((extract_multiple envOf cs).1, c :: (extract_multiple envOf cs).2)

/-! ## Image normalization (`LogoExtractor.process_image`)

PIL is external: `decode` abstracts `Image.open` (`none` = decode exception);
a decoded image is abstracted by its color mode (PIL mode string), and
`Image.convert` by replacing that mode.  `save(filepath, 'PNG')` encodes the
image in its current mode. -/

structure PILImage where
  mode : String
  deriving DecidableEq

/-- The file written by `img.save(filepath, 'PNG', optimize=True)`:
a PNG whose color mode is the mode of `img` at save time; `converted` records
whether a `convert('RGBA')` call was performed on the way. -/
structure SavedPNG where
  mode : String
  converted : Bool
  deriving DecidableEq

/-- `LogoExtractor.process_image` mode handling: convert to RGBA only when the
decoded mode is exactly `RGB` or `P`; any other non-RGBA mode (e.g. `L`, `1`,
`CMYK`, `I`) is saved unconverted. -/
def process_image (decode : List Nat → Option PILImage) (data : List Nat) :
    Option SavedPNG :=
  match decode data with
  | none => none
  | some img =>
    if img.mode ≠ "RGBA" then
      if img.mode = "RGB" then some { mode := "RGBA", converted := true }
      else if img.mode = "P" then some { mode := "RGBA", converted := true }
      else some { mode := img.mode, converted := false }
    else some { mode := img.mode, converted := false }

/-! ## Concrete oracles used by witness theorems -/

/-- A decode oracle whose images are grayscale (PIL mode `L`), as produced by
`Image.open` on a grayscale JPEG. -/
def decodeGray : List Nat → Option PILImage := fun _ => some { mode := "L" }

/-- A decode oracle whose images are already RGBA. -/
def decodeRGBA : List Nat → Option PILImage := fun _ => some { mode := "RGBA" }

/-- Provider oracle: Clearbit fails, Logo.dev succeeds, processing succeeds. -/
def envW : LogoEnv :=
  { fetch := fun i => if i = 1 then some [7, 7] else none
    process := fun _ => some "company_logos/acme_logo.png" }

/-- Provider oracle with every provider failing. -/
def envAllFail : LogoEnv := { fetch := fun _ => none, process := fun _ => none }

def envOfW : String → LogoEnv := fun c => if c = "Acme" then envW else envAllFail

/-- Page oracle for the three-target GRESB run: `u1` renders text with no
rating, `u2` renders a valid score, `u3` times out. -/
def pageW : String → Option (List Char) := fun u =>
  if u = "u1" then some "no ratings disclosed".toList
  else if u = "u2" then some "GRESB score: 83".toList
  else none

def companiesW : List Company :=
  [{ name := "A", urls := ["u1"] }, { name := "B", urls := ["u2"] },
   { name := "C", urls := ["u3"] }]

/-! ## Capture soundness

`CapL items acc done cap` over-approximates the matcher: whenever
`mrunF f items prev s acc done` succeeds with capture `cap` (for any fuel,
previous character and text), a `CapL` derivation exists.  The derivation
records which characters can flow into the group accumulator, which is all
that is needed to bound the value of a capture of a concrete pattern. -/

inductive CapL : List RItem → Option (List Char) → Option (List Char) → List Char → Prop where
  | fin {acc done} : CapL [] acc done (done.getD [])
  | lit {c rest acc done cap} :
      CapL rest (acc.map (c :: ·)) done cap → CapL (.lit c :: rest) acc done cap
  | litCI {x c rest acc done cap} : eqCI x c = true →
      CapL rest (acc.map (x :: ·)) done cap → CapL (.litCI c :: rest) acc done cap
  | cls {x p rest acc done cap} : p x = true →
      CapL rest (acc.map (x :: ·)) done cap → CapL (.cls p :: rest) acc done cap
  | starG_skip {p rest acc done cap} :
      CapL rest acc done cap → CapL (.starG p :: rest) acc done cap
  | starG_take {x p rest acc done cap} : p x = true →
      CapL (.starG p :: rest) (acc.map (x :: ·)) done cap →
      CapL (.starG p :: rest) acc done cap
  | starL_skip {p rest acc done cap} :
      CapL rest acc done cap → CapL (.starL p :: rest) acc done cap
  | starL_take {x p rest acc done cap} : p x = true →
      CapL (.starL p :: rest) (acc.map (x :: ·)) done cap →
      CapL (.starL p :: rest) acc done cap
  | repg_stop {hi p rest acc done cap} :
      CapL rest acc done cap → CapL (.repg 0 hi p :: rest) acc done cap
  | repg_take {x lo h p rest acc done cap} : p x = true →
      CapL (.repg (lo - 1) h p :: rest) (acc.map (x :: ·)) done cap →
      CapL (.repg lo (h + 1) p :: rest) acc done cap
  | opt_yes {r rest acc done cap} :
      CapL (r ++ rest) acc done cap → CapL (.opt r :: rest) acc done cap
  | opt_no {r rest acc done cap} :
      CapL rest acc done cap → CapL (.opt r :: rest) acc done cap
  | alt_l {a b rest acc done cap} :
      CapL (a ++ rest) acc done cap → CapL (.alt a b :: rest) acc done cap
  | alt_r {a b rest acc done cap} :
      CapL (b ++ rest) acc done cap → CapL (.alt a b :: rest) acc done cap
  | grp {r rest acc done cap} :
      CapL (.gbeg :: (r ++ .gend :: rest)) acc done cap →
      CapL (.grp r :: rest) acc done cap
  | gbeg {rest acc done cap} :
      CapL rest (some []) done cap → CapL (.gbeg :: rest) acc done cap
  | gend {rest acc done cap} :
      CapL rest none (match acc with | some l => some l.reverse | none => done) cap →
      CapL (.gend :: rest) acc done cap
  | wb {rest acc done cap} :
      CapL rest acc done cap → CapL (.wb :: rest) acc done cap

/-- `MRes` success test. -/
def isOkB : MRes → Bool
  | .ok _ _ _ => true
  | _ => false

/-- The `prev` character the scan of `searchText` passes when it reaches
position `n` of `s`, having started with `pr`. -/
def prevAt (pr : Option Char) (s : List Char) (n : Nat) : Option Char :=
  if n = 0 then pr else (s.take n).getLast?

/-- ASCII case swap (an involution): used to state case-insensitivity of the
GRESB patterns. -/
def swapCase (c : Char) : Char :=
  if 97 ≤ c.toNat && c.toNat ≤ 122 then Char.ofNat (c.toNat - 32)
  else if 65 ≤ c.toNat && c.toNat ≤ 90 then Char.ofNat (c.toNat + 32)
  else c

/-- `CIOK items`: every literal is case-insensitive (or caseless) and every
character class is invariant under `swapCase` — the structural reason the GRESB
patterns (compiled with `re.IGNORECASE`) cannot distinguish letter case. -/
def CIOK : List RItem → Prop
  | [] => True
  | .lit c :: rest => swapCase c = c ∧ CIOK rest
  | .litCI _ :: rest => CIOK rest
  | .cls p :: rest => (∀ x, p (swapCase x) = p x) ∧ CIOK rest
  | .starG p :: rest => (∀ x, p (swapCase x) = p x) ∧ CIOK rest
  | .starL p :: rest => (∀ x, p (swapCase x) = p x) ∧ CIOK rest
  | .repg _ _ p :: rest => (∀ x, p (swapCase x) = p x) ∧ CIOK rest
  | .opt r :: rest => CIOK (r ++ rest) ∧ CIOK rest
  | .alt a b :: rest => CIOK (a ++ rest) ∧ CIOK (b ++ rest)
  | .grp r :: rest => CIOK (.gbeg :: (r ++ .gend :: rest))
  | .gbeg :: rest => CIOK rest
  | .gend :: rest => CIOK rest
  | .wb :: rest => CIOK rest
  termination_by l => sizeL l
  decreasing_by
    all_goals simp [sizeL, sizeL_append]
    all_goals omega

mutual

/-- `PIn items`: the matcher state is inside the capturing group; every
character-consuming item up to the closing `gend` marker consumes only digits. -/
def PIn : List RItem → Prop
  | [] => True
  | .lit c :: rest => isDig c = true ∧ PIn rest
  | .litCI c :: rest => (∀ x, eqCI x c = true → isDig x = true) ∧ PIn rest
  | .cls p :: rest => (∀ x, p x = true → isDig x = true) ∧ PIn rest
  | .starG p :: rest => (∀ x, p x = true → isDig x = true) ∧ PIn rest
  | .starL p :: rest => (∀ x, p x = true → isDig x = true) ∧ PIn rest
  | .repg _ _ p :: rest => (∀ x, p x = true → isDig x = true) ∧ PIn rest
  | .opt r :: rest => PIn (r ++ rest) ∧ PIn rest
  | .alt a b :: rest => PIn (a ++ rest) ∧ PIn (b ++ rest)
  | .grp _ :: _ => False
  | .gbeg :: _ => False
  | .gend :: rest => POut rest
  | .wb :: rest => PIn rest
  termination_by l => sizeL l
  decreasing_by
    all_goals simp [sizeL, sizeL_append]
    all_goals omega

/-- `POut items`: the matcher state is outside the capturing group; any group
opened later consumes only digits. -/
def POut : List RItem → Prop
  | [] => True
  | .lit _ :: rest => POut rest
  | .litCI _ :: rest => POut rest
  | .cls _ :: rest => POut rest
  | .starG _ :: rest => POut rest
  | .starL _ :: rest => POut rest
  | .repg _ _ _ :: rest => POut rest
  | .opt r :: rest => POut (r ++ rest) ∧ POut rest
  | .alt a b :: rest => POut (a ++ rest) ∧ POut (b ++ rest)
  | .grp r :: rest => POut (.gbeg :: (r ++ .gend :: rest))
  | .gbeg :: rest => PIn rest
  | .gend :: rest => POut rest
  | .wb :: rest => POut rest
  termination_by l => sizeL l
  decreasing_by
    all_goals simp [sizeL, sizeL_append]
    all_goals omega

end

/-- Image of a match result under a character map (used for the case-swap
equivariance statement). -/
def MRes.mapS (m : MRes) : MRes :=
  match m with
  | .out => .out
  | .fail => .fail
  | .ok c p r => .ok (c.map swapCase) (p.map swapCase) (r.map swapCase)

end Scraper

namespace Scraper

/-! ## Helper lemmas -/

theorem find?_eq_some_split {α : Type} (p : α → Bool) :
    ∀ (l : List α) (a : α), l.find? p = some a →
      ∃ pre post, l = pre ++ a :: post ∧ p a = true ∧ ∀ q ∈ pre, p q = false := by
  intro l
  induction l with
  | nil => intro a h; simp [List.find?] at h
  | cons x t ih =>
    intro a h
    cases hx : p x with
    | true =>
      rw [List.find?_cons_of_pos _ hx] at h
      cases h
      exact ⟨[], t, rfl, hx, by simp⟩
    | false =>
      rw [List.find?_cons_of_neg _ (by simp [hx])] at h
      obtain ⟨pre, post, hl, hp, hpre⟩ := ih a h
      refine ⟨x :: pre, post, by simp [hl], hp, ?_⟩
      intro q hq
      rcases List.mem_cons.mp hq with h1 | h2
      · simpa [h1] using hx
      · exact hpre q h2

theorem firstScore_range (text : List Char) :
    ∀ ps s, firstScore text ps = some s → 0 ≤ s ∧ s ≤ 100 := by
  intro ps
  induction ps with
  | nil => intro s h; simp [firstScore] at h
  | cons p ps ih =>
    intro s h
    unfold firstScore at h
    cases hs : search p text with
    | none => rw [hs] at h; exact ih s h
    | some r =>
      obtain ⟨cap, pr, rest⟩ := r
      rw [hs] at h
      by_cases hr : 0 ≤ toNatD cap ∧ toNatD cap ≤ 100
      · simp only [if_pos hr, Option.some.injEq] at h
        omega
      · simp only [if_neg hr] at h
        exact ih s h

theorem firstStars_range (text : List Char) :
    ∀ ps s, firstStars text ps = some s → 1 ≤ s ∧ s ≤ 5 := by
  intro ps
  induction ps with
  | nil => intro s h; simp [firstStars] at h
  | cons p ps ih =>
    intro s h
    unfold firstStars at h
    cases hs : search p text with
    | none => rw [hs] at h; exact ih s h
    | some r =>
      obtain ⟨cap, pr, rest⟩ := r
      rw [hs] at h
      by_cases hr : 1 ≤ toNatD cap ∧ toNatD cap ≤ 5
      · simp only [if_pos hr, Option.some.injEq] at h
        omega
      · simp only [if_neg hr] at h
        exact ih s h

theorem tryUrls_none_of (page : String → Option (List Char)) :
    ∀ urls, (∀ u ∈ urls, ∀ text, page u = some text →
        (truthyNat (extract_gresb_rating text).score ||
         truthyNat (extract_gresb_rating text).stars) = false) →
      tryUrls page urls = none := by
  intro urls
  induction urls with
  | nil => intro _; rfl
  | cons u us ih =>
    intro h
    unfold tryUrls
    cases hu : page u with
    | none => exact ih fun v hv => h v (List.mem_cons_of_mem _ hv)
    | some text =>
      have ht := h u (by simp) text hu
      simp only [ht, if_false, Bool.false_eq_true]
      exact ih fun v hv => h v (List.mem_cons_of_mem _ hv)

theorem extract_logo_over_none_iff (env : LogoEnv) :
    ∀ l, ((extract_logo_over env l).success = none ↔ ∀ i ∈ l, attemptFails env i) := by
  intro l
  induction l with
  | nil => simp [extract_logo_over]
  | cons i is ih =>
    cases hf : env.fetch i with
    | none =>
      simp only [extract_logo_over, hf, List.mem_cons]
      constructor
      · intro h j hj
        rcases hj with hj | hj
        · subst hj; simp [attemptFails, hf]
        · exact (ih.mp h) j hj
      · intro h
        exact ih.mpr fun j hj => h j (Or.inr hj)
    | some b =>
      cases hp : env.process b with
      | none =>
        simp only [extract_logo_over, hf, hp, List.mem_cons]
        constructor
        · intro h j hj
          rcases hj with hj | hj
          · subst hj; simp [attemptFails, hf, hp]
          · exact (ih.mp h) j hj
        · intro h
          exact ih.mpr fun j hj => h j (Or.inr hj)
      | some path =>
        simp only [extract_logo_over, hf, hp, List.mem_cons]
        constructor
        · intro h
          simp at h
        · intro h
          have := h i (Or.inl rfl)
          simp [attemptFails, hf, hp] at this


theorem extract_logo_over_invoked_of_none (env : LogoEnv) :
    ∀ l, (extract_logo_over env l).success = none →
      (extract_logo_over env l).invoked = l := by
  intro l
  induction l with
  | nil => intro _; rfl
  | cons i is ih =>
    intro h
    cases hf : env.fetch i with
    | none =>
      simp only [extract_logo_over, hf] at h ⊢
      rw [ih h]
    | some b =>
      cases hp : env.process b with
      | none =>
        simp only [extract_logo_over, hf, hp] at h ⊢
        rw [ih h]
      | some path =>
        simp only [extract_logo_over, hf, hp] at h
        simp at h

theorem extract_multiple_accounting (envOf : String → LogoEnv) :
    ∀ cs : List String,
      (extract_multiple envOf cs).1.length + (extract_multiple envOf cs).2.length
          = cs.length ∧
      (∀ c ∈ (extract_multiple envOf cs).2, (extract_logo (envOf c)).success = none) ∧
      (∀ c ∈ cs, c ∈ (extract_multiple envOf cs).1 ∨ c ∈ (extract_multiple envOf cs).2) := by
  intro cs
  induction cs with
  | nil => exact ⟨rfl, by simp [extract_multiple], by simp⟩
  | cons c cs ih =>
    obtain ⟨ihlen, ihfail, ihmem⟩ := ih
    by_cases hc : (extract_logo (envOf c)).success.isSome
    · refine ⟨?_, ?_, ?_⟩
      · simp only [extract_multiple, hc, if_true, List.length_cons]
        omega
      · intro d hd
        simp only [extract_multiple, hc, if_true] at hd
        exact ihfail d hd
      · intro d hd
        rcases List.mem_cons.mp hd with rfl | hd
        · left; simp [extract_multiple, hc]
        · rcases ihmem d hd with h1 | h2
          · left; simp only [extract_multiple, hc, if_true]
            exact List.mem_cons_of_mem _ h1
          · right; simpa only [extract_multiple, hc, if_true] using h2
    · have hc' : (extract_logo (envOf c)).success.isSome = false := by
        simpa using hc
      refine ⟨?_, ?_, ?_⟩
      · simp only [extract_multiple, hc', Bool.false_eq_true, if_false, List.length_cons]
        omega
      · intro d hd
        simp only [extract_multiple, hc', Bool.false_eq_true, if_false] at hd
        rcases List.mem_cons.mp hd with rfl | hd
        · exact Option.not_isSome_iff_eq_none.mp hc
        · exact ihfail d hd
      · intro d hd
        rcases List.mem_cons.mp hd with rfl | hd
        · right; simp [extract_multiple, hc']
        · rcases ihmem d hd with h1 | h2
          · left
            simpa only [extract_multiple, hc', Bool.false_eq_true, if_false] using h1
          · right; simp only [extract_multiple, hc', Bool.false_eq_true, if_false]
            exact List.mem_cons_of_mem _ h2

/-! ## Claim theorems -/

/-- Claim C1: in the GRESB rating extractor, every numeric capture is
range-validated before acceptance (accepted scores lie in `[0,100]`, accepted
star counts in `[1,5]`); an out-of-range capture is a non-match and the cascade
moves on, so `"GRESB score: 83"` yields score 83 while `"GRESB score: 140"`
yields no score at all — no later pattern picks up a digit substring. -/
theorem c1_range_validated (text : List Char) :
    (∀ s, (extract_gresb_rating text).score = some s → 0 ≤ s ∧ s ≤ 100) ∧
    (∀ k, (extract_gresb_rating text).stars = some k → 1 ≤ k ∧ k ≤ 5) ∧
    extract_gresb_rating "GRESB score: 83".toList = { score := some 83, stars := none } ∧
    extract_gresb_rating "GRESB score: 140".toList = { score := none, stars := none } := by
  refine ⟨?_, ?_, by decide, by decide⟩
  · intro s h
    exact firstScore_range text score_patterns s h
  · intro k h
    exact firstStars_range text star_patterns k h

/-- Claim C1 witness: the range theorem applied at the concrete text
`"GRESB score: 83"`. -/
theorem c1_range_validated_witness :
    (extract_gresb_rating "GRESB score: 83".toList).score = some 83 ∧
    0 ≤ 83 ∧ 83 ≤ 100 := by
  have h := c1_range_validated "GRESB score: 83".toList
  exact ⟨h.2.2.1 ▸ rfl, h.1 83 (h.2.2.1 ▸ rfl)⟩

/-- Claim C2: patterns are tried in declared order and the first pattern whose
capture passes range validation wins — if pattern #1 of a field matches with an
in-range value, the extracted value is pattern #1's capture even when pattern #3
also matches with a different in-range value. -/
theorem c2_pattern_order (text : List Char) :
    (∀ c1 p1 r1 c3 p3 r3,
      search sp1 text = some (c1, p1, r1) → search sp3 text = some (c3, p3, r3) →
      toNatD c1 ≤ 100 → toNatD c3 ≤ 100 → toNatD c1 ≠ toNatD c3 →
      (extract_gresb_rating text).score = some (toNatD c1)) ∧
    (∀ c1 p1 r1 c3 p3 r3,
      search st1 text = some (c1, p1, r1) → search st3 text = some (c3, p3, r3) →
      1 ≤ toNatD c1 → toNatD c1 ≤ 5 → 1 ≤ toNatD c3 → toNatD c3 ≤ 5 →
      toNatD c1 ≠ toNatD c3 →
      (extract_gresb_rating text).stars = some (toNatD c1)) := by
  constructor
  · intro c1 p1 r1 c3 p3 r3 h1 _h3 hle _ _
    show firstScore text score_patterns = some (toNatD c1)
    have hin : 0 ≤ toNatD c1 ∧ toNatD c1 ≤ 100 := ⟨Nat.zero_le _, hle⟩
    simp [score_patterns, firstScore, h1, hin]
  · intro c1 p1 r1 c3 p3 r3 h1 _h3 hge hle _ _ _
    show firstStars text star_patterns = some (toNatD c1)
    have hin : 1 ≤ toNatD c1 ∧ toNatD c1 ≤ 5 := ⟨hge, hle⟩
    simp [star_patterns, firstStars, h1, hin]

/-- Claim C2 witness: the order theorem applied to a text matching score
patterns #1 (capture 55) and #3 (capture 70), and star patterns #1 (capture 4)
and #3 (capture 2). -/
theorem c2_pattern_order_witness :
    (extract_gresb_rating "GRESB rating: 55 and 70/100 GRESB".toList).score = some 55 ∧
    (extract_gresb_rating "4 star GRESB; achieved 2 stars in GRESB".toList).stars = some 4 := by
  constructor
  · have h := (c2_pattern_order "GRESB rating: 55 and 70/100 GRESB".toList).1
      "55".toList (some '5') " and 70/100 GRESB".toList
      "70".toList (some 'B') "".toList (by decide) (by decide)
      (by decide) (by decide) (by decide)
    simpa using h
  · have h := (c2_pattern_order "4 star GRESB; achieved 2 stars in GRESB".toList).2
      "4".toList (some 'B') "; achieved 2 stars in GRESB".toList
      "2".toList (some 'B') "".toList (by decide) (by decide)
      (by decide) (by decide) (by decide) (by decide) (by decide)
    simpa using h

/-- Claim C3: the provider cascade short-circuits on first acceptance — if
Clearbit (provider 0) fails and Logo.dev (provider 1) succeeds and its bytes
process successfully, the accepted/normalized bytes are Logo.dev's and
Brandfetch (2) and Google Favicons (3) are never invoked. -/
theorem c3_short_circuit (env : LogoEnv) (b : List Nat) (path : String) :
    env.fetch 0 = none → env.fetch 1 = some b → env.process b = some path →
    extract_logo env =
      { success := some (1, b, path), invoked := [0, 1], processedCalls := [(1, b)] } ∧
    2 ∉ (extract_logo env).invoked ∧ 3 ∉ (extract_logo env).invoked := by
  intro h0 h1 hp
  have he : extract_logo env =
      { success := some (1, b, path), invoked := [0, 1], processedCalls := [(1, b)] } := by
    simp [extract_logo, providerOrder, extract_logo_over, h0, h1, hp]
  refine ⟨he, ?_, ?_⟩ <;> rw [he] <;> simp

/-- Claim C3 witness: the short-circuit theorem applied to the concrete oracle
`envW` (Clearbit fails, Logo.dev returns bytes `[7, 7]`). -/
theorem c3_short_circuit_witness :
    extract_logo envW =
      { success := some (1, [7, 7], "company_logos/acme_logo.png")
        invoked := [0, 1], processedCalls := [(1, [7, 7])] } :=
  (c3_short_circuit envW [7, 7] "company_logos/acme_logo.png" rfl rfl rfl).1

/-- Claim C4 (code bug): `process_image` converts only modes `RGB` and `P` to
RGBA; an image decoded in mode `L` (grayscale, no alpha channel) is saved as a
PNG still in mode `L`, with no conversion — contradicting the claimed (and
docstring-stated) guarantee that every saved output has an alpha channel. -/
theorem c4_mode_L_not_converted :
    process_image decodeGray [0] = some { mode := "L", converted := false } ∧
    "L" ≠ "RGBA" := by
  constructor
  · rfl
  · decide

/-- Claim C5 (counterexample): on `"Severe then Low"` the keyword occurring
first in text order is `Severe`, but the code extracts `Low` — the first
keyword of the declared vocabulary that occurs anywhere in the text. -/
theorem c5_text_order_counterexample :
    riskLevel "Severe then Low".toList = some "Low".toList ∧
    spec_riskFirstInTextOrder "Severe then Low".toList = some "Severe".toList ∧
    "Low".toList ≠ "Severe".toList := by
  refine ⟨by decide, by decide, by decide⟩

/-- Claim C5 (amended): the extracted risk level is the first keyword in the
declared vocabulary order (`Negligible, Low, Medium, High, Severe`) that occurs
as a (case-sensitive) substring anywhere in the page text — not the keyword
occurring earliest in text order. -/
theorem c5_vocab_order (text : List Char) (r : List Char) :
    riskLevel text = some r →
    ∃ pre post, risk_keywords = pre ++ r :: post ∧
      containsSub r text = true ∧ ∀ q ∈ pre, containsSub q text = false := by
  intro h
  exact find?_eq_some_split (fun k => containsSub k text) risk_keywords r h

/-- Claim C5 witness: the amended theorem applied at the counterexample text,
where the extracted keyword `Low` is preceded in the vocabulary only by
`Negligible`, which indeed does not occur. -/
theorem c5_vocab_order_witness :
    ∃ pre post, risk_keywords = pre ++ "Low".toList :: post ∧
      containsSub "Low".toList "Severe then Low".toList = true ∧
      ∀ q ∈ pre, containsSub q "Severe then Low".toList = false :=
  c5_vocab_order "Severe then Low".toList "Low".toList (by decide)

/-- Claim C8: the normalizer is idempotent on already-RGBA input — no mode
conversion is performed and the saved output is a PNG still in mode RGBA. -/
theorem c8_rgba_idempotent (decode : List Nat → Option PILImage) (data : List Nat)
    (img : PILImage) :
    decode data = some img → img.mode = "RGBA" →
    process_image decode data = some { mode := "RGBA", converted := false } := by
  intro hd hm
  simp [process_image, hd, hm]

/-- Claim C8 witness: the idempotence theorem applied to a concrete decode
oracle producing RGBA images. -/
theorem c8_rgba_idempotent_witness :
    process_image decodeRGBA [0] = some { mode := "RGBA", converted := false } :=
  c8_rgba_idempotent decodeRGBA [0] { mode := "RGBA" } rfl rfl

/-- Claim C9: per-target failures never drop a record — every company in the
pipeline's list contributes exactly one result record, and a company none of
whose pages yields a (truthy) score or star rating gets a record with all
rating fields empty. -/
theorem c9_one_record_per_target (page : String → Option (List Char))
    (cs : List Company) :
    (scrape_all page cs).length = cs.length ∧
    (∀ i (hi : i < cs.length),
      (scrape_all page cs).get ⟨i, by simpa [scrape_all] using hi⟩ =
        scrape_company page (cs.get ⟨i, hi⟩)) ∧
    (∀ c : Company,
      (∀ u ∈ c.urls, ∀ text, page u = some text →
        (truthyNat (extract_gresb_rating text).score ||
         truthyNat (extract_gresb_rating text).stars) = false) →
      (scrape_company page c).gresb_score = none ∧
      (scrape_company page c).gresb_stars = none ∧
      (scrape_company page c).source_url = none) := by
  refine ⟨by simp [scrape_all], ?_, ?_⟩
  · intro i hi
    simp [scrape_all]
  · intro c h
    have ht := tryUrls_none_of page c.urls h
    simp [scrape_company, ht]

/-- Claim C9 witness: a 3-target run (no-match text, valid score, timeout)
exports exactly 3 records; targets 1 and 3 have empty rating fields, target 2
is populated. -/
theorem c9_one_record_per_target_witness :
    (scrape_all pageW companiesW).length = 3 ∧
    (scrape_company pageW { name := "A", urls := ["u1"] }).gresb_score = none ∧
    (scrape_company pageW { name := "A", urls := ["u1"] }).source_url = none ∧
    (scrape_company pageW { name := "C", urls := ["u3"] }).gresb_score = none ∧
    (scrape_company pageW { name := "C", urls := ["u3"] }).source_url = none ∧
    (scrape_company pageW { name := "B", urls := ["u2"] }).gresb_score = some 83 ∧
    (scrape_company pageW { name := "B", urls := ["u2"] }).source_url = some "u2" := by
  obtain ⟨hlen, _, hempty⟩ := c9_one_record_per_target pageW companiesW
  have hA := hempty { name := "A", urls := ["u1"] } (by
    intro u hu text htx
    have hu1 : u = "u1" := by simpa using hu
    subst hu1
    simp [pageW] at htx
    subst htx
    decide)
  have hC := hempty { name := "C", urls := ["u3"] } (by
    intro u hu text htx
    have : u = "u3" := by simpa using hu
    subst this
    simp [pageW] at htx)
  refine ⟨by simpa [companiesW] using hlen, hA.1, hA.2.2, hC.1, hC.2.2, by decide, by decide⟩

/-- Claim C10: per-provider failures are recovered locally — a company is in
the failed set iff all four providers were exhausted (fetch failed or the
fetched bytes failed to process), in which case all four were invoked; and
`extract_multiple` processes every company: the downloaded and failed lists
together account for each company, so processing always continues past a
failure. -/
theorem c10_provider_recovery (envOf : String → LogoEnv) (cs : List String) :
    (∀ env : LogoEnv,
      ((extract_logo env).success = none ↔ ∀ i ∈ providerOrder, attemptFails env i) ∧
      ((extract_logo env).success = none → (extract_logo env).invoked = providerOrder)) ∧
    (extract_multiple envOf cs).1.length + (extract_multiple envOf cs).2.length
        = cs.length ∧
    (∀ c ∈ (extract_multiple envOf cs).2, (extract_logo (envOf c)).success = none) ∧
    (∀ c ∈ cs, c ∈ (extract_multiple envOf cs).1 ∨ c ∈ (extract_multiple envOf cs).2) := by
  obtain ⟨h1, h2, h3⟩ := extract_multiple_accounting envOf cs
  exact ⟨fun env => ⟨extract_logo_over_none_iff env providerOrder,
    extract_logo_over_invoked_of_none env providerOrder⟩, h1, h2, h3⟩

/-- Claim C10 witness: with `Acme` succeeding via Logo.dev and `Niche Co`
exhausting all four providers, both companies are accounted for: one
downloaded, one failed, and the failed cascade invoked all four providers. -/
theorem c10_provider_recovery_witness :
    (extract_multiple envOfW ["Acme", "Niche Co"]).1 = ["Acme"] ∧
    (extract_multiple envOfW ["Acme", "Niche Co"]).2 = ["Niche Co"] ∧
    (extract_logo (envOfW "Niche Co")).success = none ∧
    (extract_logo (envOfW "Niche Co")).invoked = providerOrder := by
  have h := c10_provider_recovery envOfW ["Acme", "Niche Co"]
  have hfail : (extract_logo (envOfW "Niche Co")).success = none :=
    (h.1 (envOfW "Niche Co")).1.mpr (by decide)
  exact ⟨by decide, by decide, hfail, (h.1 (envOfW "Niche Co")).2 hfail⟩

theorem orElseR_eq_ok {a : MRes} {b : Unit → MRes} {c : List Char} {p : Option Char}
    {r : List Char} (h : MRes.orElseR a b = .ok c p r) :
    a = .ok c p r ∨ b () = .ok c p r := by
  cases a with
  | ok c1 p1 r1 => left; simpa [MRes.orElseR] using h
  | fail => right; simpa [MRes.orElseR] using h
  | out => simp [MRes.orElseR] at h

/-- Soundness of the matcher with respect to `CapL`: a successful run at any
fuel yields a `CapL` derivation for its capture. -/
theorem mrunF_capL :
    ∀ f items prev s acc done cap pr rest,
      mrunF f items prev s acc done = .ok cap pr rest → CapL items acc done cap := by
  intro f
  induction f with
  | zero =>
    intro items prev s acc done cap pr rest h
    simp [mrunF] at h
  | succ f ih =>
    intro items prev s acc done cap pr rest h
    cases items with
    | nil =>
      simp only [mrunF, MRes.ok.injEq] at h
      obtain ⟨h1, -, -⟩ := h
      rw [← h1]
      exact CapL.fin
    | cons it rest' =>
      cases it with
      | lit ch =>
        cases s with
        | nil => simp [mrunF] at h
        | cons x t =>
          simp only [mrunF] at h
          by_cases hx : x = ch
          · rw [if_pos hx] at h
            subst hx
            exact CapL.lit (ih _ _ _ _ _ _ _ _ h)
          · rw [if_neg hx] at h
            simp at h
      | litCI ch =>
        cases s with
        | nil => simp [mrunF] at h
        | cons x t =>
          simp only [mrunF] at h
          by_cases hx : eqCI x ch = true
          · rw [if_pos hx] at h
            exact CapL.litCI hx (ih _ _ _ _ _ _ _ _ h)
          · rw [if_neg hx] at h
            simp at h
      | cls p =>
        cases s with
        | nil => simp [mrunF] at h
        | cons x t =>
          simp only [mrunF] at h
          by_cases hx : p x = true
          · rw [if_pos hx] at h
            exact CapL.cls hx (ih _ _ _ _ _ _ _ _ h)
          · rw [if_neg hx] at h
            simp at h
      | starG p =>
        cases s with
        | nil =>
          simp only [mrunF] at h
          exact CapL.starG_skip (ih _ _ _ _ _ _ _ _ h)
        | cons x t =>
          simp only [mrunF] at h
          by_cases hx : p x = true
          · rw [if_pos hx] at h
            rcases orElseR_eq_ok h with h1 | h2
            · exact CapL.starG_take hx (ih _ _ _ _ _ _ _ _ h1)
            · exact CapL.starG_skip (ih _ _ _ _ _ _ _ _ h2)
          · rw [if_neg hx] at h
            exact CapL.starG_skip (ih _ _ _ _ _ _ _ _ h)
      | starL p =>
        cases s with
        | nil =>
          simp only [mrunF] at h
          exact CapL.starL_skip (ih _ _ _ _ _ _ _ _ h)
        | cons x t =>
          simp only [mrunF] at h
          rcases orElseR_eq_ok h with h1 | h2
          · exact CapL.starL_skip (ih _ _ _ _ _ _ _ _ h1)
          · by_cases hx : p x = true
            · rw [if_pos hx] at h2
              exact CapL.starL_take hx (ih _ _ _ _ _ _ _ _ h2)
            · rw [if_neg hx] at h2
              simp at h2
      | repg lo hi p =>
        cases hi with
        | zero =>
          simp only [mrunF] at h
          by_cases hlo : lo = 0
          · rw [if_pos hlo] at h
            subst hlo
            exact CapL.repg_stop (ih _ _ _ _ _ _ _ _ h)
          · rw [if_neg hlo] at h
            simp at h
        | succ hh =>
          cases s with
          | nil =>
            simp only [mrunF] at h
            by_cases hlo : lo = 0
            · rw [if_pos hlo] at h
              subst hlo
              exact CapL.repg_stop (ih _ _ _ _ _ _ _ _ h)
            · rw [if_neg hlo] at h
              simp at h
          | cons x t =>
            simp only [mrunF] at h
            by_cases hx : p x = true
            · rw [if_pos hx] at h
              rcases orElseR_eq_ok h with h1 | h2
              · exact CapL.repg_take hx (ih _ _ _ _ _ _ _ _ h1)
              · by_cases hlo : lo = 0
                · rw [if_pos hlo] at h2
                  subst hlo
                  exact CapL.repg_stop (ih _ _ _ _ _ _ _ _ h2)
                · rw [if_neg hlo] at h2
                  simp at h2
            · rw [if_neg hx] at h
              by_cases hlo : lo = 0
              · rw [if_pos hlo] at h
                subst hlo
                exact CapL.repg_stop (ih _ _ _ _ _ _ _ _ h)
              · rw [if_neg hlo] at h
                simp at h
      | opt r =>
        simp only [mrunF] at h
        rcases orElseR_eq_ok h with h1 | h2
        · exact CapL.opt_yes (ih _ _ _ _ _ _ _ _ h1)
        · exact CapL.opt_no (ih _ _ _ _ _ _ _ _ h2)
      | alt a b =>
        simp only [mrunF] at h
        rcases orElseR_eq_ok h with h1 | h2
        · exact CapL.alt_l (ih _ _ _ _ _ _ _ _ h1)
        · exact CapL.alt_r (ih _ _ _ _ _ _ _ _ h2)
      | grp r =>
        simp only [mrunF] at h
        exact CapL.grp (ih _ _ _ _ _ _ _ _ h)
      | gbeg =>
        simp only [mrunF] at h
        exact CapL.gbeg (ih _ _ _ _ _ _ _ _ h)
      | gend =>
        simp only [mrunF] at h
        exact CapL.gend (ih _ _ _ _ _ _ _ _ h)
      | wb =>
        simp only [mrunF] at h
        by_cases hb : (isWordO prev != isWordNext s) = true
        · rw [if_pos hb] at h
          exact CapL.wb (ih _ _ _ _ _ _ _ _ h)
        · rw [if_neg hb] at h
          simp at h

theorem isDig_bounds {c : Char} (h : isDig c = true) : 48 ≤ c.toNat ∧ c.toNat ≤ 57 := by
  simpa [isDig] using h

theorem d04_bounds {c : Char} (h : d04 c = true) : 48 ≤ c.toNat ∧ c.toNat ≤ 52 := by
  simpa [d04] using h

theorem isDig_ne_dot {c : Char} (h : isDig c = true) : (decide (c ≠ '.')) = true := by
  obtain ⟨h1, -⟩ := isDig_bounds h
  simp only [decide_eq_true_eq]
  intro hc
  subst hc
  simp at h1

theorem takeWhile_all {p : Char → Bool} :
    ∀ l : List Char, (∀ c ∈ l, p c = true) → l.takeWhile p = l := by
  intro l
  induction l with
  | nil => intro _; rfl
  | cons x t ih =>
    intro h
    rw [List.takeWhile_cons, if_pos (h x (by simp)), ih fun c hc => h c (by simp [hc])]

theorem takeWhile_append_stop {p : Char → Bool} {d : Char} (hd : p d = false)
    (F : List Char) :
    ∀ I : List Char, (∀ c ∈ I, p c = true) → (I ++ d :: F).takeWhile p = I := by
  intro I
  induction I with
  | nil =>
    intro _
    simp [List.takeWhile_cons, hd]
  | cons x t ih =>
    intro h
    rw [List.cons_append, List.takeWhile_cons, if_pos (h x (by simp)),
      ih fun c hc => h c (by simp [hc])]

theorem dropWhile_all {p : Char → Bool} :
    ∀ l : List Char, (∀ c ∈ l, p c = true) → l.dropWhile p = [] := by
  intro l
  induction l with
  | nil => intro _; rfl
  | cons x t ih =>
    intro h
    rw [List.dropWhile_cons_of_pos (h x (by simp))]
    exact ih fun c hc => h c (by simp [hc])

theorem dropWhile_append_stop {p : Char → Bool} {d : Char} (hd : p d = false)
    (F : List Char) :
    ∀ I : List Char, (∀ c ∈ I, p c = true) → (I ++ d :: F).dropWhile p = d :: F := by
  intro I
  induction I with
  | nil =>
    intro _
    simp [List.dropWhile_cons_of_neg, hd]
  | cons x t ih =>
    intro h
    rw [List.cons_append, List.dropWhile_cons_of_pos (h x (by simp))]
    exact ih fun c hc => h c (by simp [hc])

theorem toNatD_foldl_shift :
    ∀ (b : List Char) (n : Nat),
      List.foldl (fun n c => n * 10 + (c.toNat - 48)) n b =
        n * 10 ^ b.length + toNatD b := by
  intro b
  induction b with
  | nil => intro n; simp [toNatD]
  | cons c t ih =>
    intro n
    rw [List.foldl_cons]
    rw [ih (n * 10 + (c.toNat - 48))]
    have h2 : toNatD (c :: t) = (c.toNat - 48) * 10 ^ t.length + toNatD t := by
      rw [toNatD, List.foldl_cons]
      rw [show (0 : Nat) * 10 + (c.toNat - 48) = c.toNat - 48 by omega]
      exact ih (c.toNat - 48)
    rw [h2, List.length_cons]
    ring

theorem toNatD_append (a b : List Char) :
    toNatD (a ++ b) = toNatD a * 10 ^ b.length + toNatD b := by
  rw [toNatD, List.foldl_append, ← toNatD]
  exact toNatD_foldl_shift b (toNatD a)

theorem toNatD_lt_pow :
    ∀ F : List Char, (∀ c ∈ F, isDig c = true) → toNatD F < 10 ^ F.length := by
  intro F
  induction F with
  | nil => intro _; simp [toNatD]
  | cons c t ih =>
    intro h
    have hc := isDig_bounds (h c (by simp))
    have ht := ih fun d hd => h d (by simp [hd])
    have : toNatD (c :: t) = (c.toNat - 48) * 10 ^ t.length + toNatD t := by
      rw [toNatD, List.foldl_cons]
      rw [show (0 : Nat) * 10 + (c.toNat - 48) = c.toNat - 48 by omega]
      exact toNatD_foldl_shift t (c.toNat - 48)
    rw [this, List.length_cons, pow_succ]
    have h9 : c.toNat - 48 ≤ 9 := by omega
    nlinarith [pow_pos (show 0 < 10 by norm_num) t.length]

theorem parseDec_no_frac (I : List Char) (hI : ∀ c ∈ I, isDig c = true) :
    parseDec I = (toNatD I, 0) := by
  unfold parseDec
  rw [takeWhile_all I fun c hc => isDig_ne_dot (hI c hc),
    dropWhile_all I fun c hc => isDig_ne_dot (hI c hc)]
  simp [toNatD]

theorem parseDec_with_frac (I F : List Char) (hI : ∀ c ∈ I, isDig c = true) :
    parseDec (I ++ '.' :: F) = (toNatD (I ++ F), F.length) := by
  unfold parseDec
  have hd : (decide (('.' : Char) ≠ '.')) = false := by decide
  rw [takeWhile_append_stop hd F I fun c hc => isDig_ne_dot (hI c hc),
    dropWhile_append_stop hd F I fun c hc => isDig_ne_dot (hI c hc)]
  simp [toNatD_append]

theorem parseDec_le_nofrac (I : List Char) (hI : ∀ c ∈ I, isDig c = true)
    (hIv : toNatD I ≤ 50) :
    (parseDec I).1 ≤ 100 * 10 ^ (parseDec I).2 := by
  rw [parseDec_no_frac I hI]
  simpa using by omega

theorem parseDec_le_frac (I F : List Char) (hI : ∀ c ∈ I, isDig c = true)
    (hF : ∀ c ∈ F, isDig c = true) (hIv : toNatD I ≤ 50) :
    (parseDec (I ++ '.' :: F)).1 ≤ 100 * 10 ^ (parseDec (I ++ '.' :: F)).2 := by
  rw [parseDec_with_frac I F hI]
  have h1 := toNatD_lt_pow F hF
  have h2 := toNatD_append I F
  have hp : 0 < 10 ^ F.length := pow_pos (by norm_num) _
  simp only
  rw [h2]
  nlinarith

theorem capL_tail (m cap : List Char) (h : CapL [.gend, .wb] (some m) none cap) :
    cap = m.reverse := by
  cases h with
  | gend h =>
    cases h with
    | wb h =>
      cases h
      rfl

theorem capL_fracpart (l cap : List Char)
    (h : CapL (.opt [.lit '.', .repg 1 2 isDig] :: [.gend, .wb]) (some l) none cap) :
    cap = l.reverse ∨
    (∃ y1, isDig y1 = true ∧ cap = l.reverse ++ ['.', y1]) ∨
    (∃ y1 y2, isDig y1 = true ∧ isDig y2 = true ∧ cap = l.reverse ++ ['.', y1, y2]) := by
  cases h with
  | opt_no h => exact Or.inl (capL_tail l cap h)
  | opt_yes h =>
    simp only [List.cons_append, List.nil_append] at h
    cases h with
    | lit h =>
      simp only [Option.map_some'] at h
      cases h with
      | repg_take hy1 h =>
        rename_i y1
        simp only [Option.map_some'] at h
        cases h with
        | repg_stop h =>
          refine Or.inr (Or.inl ⟨y1, hy1, ?_⟩)
          rw [capL_tail _ _ h]
          simp
        | repg_take hy2 h =>
          rename_i y2
          simp only [Option.map_some'] at h
          cases h with
          | repg_stop h =>
            refine Or.inr (Or.inr ⟨y1, y2, hy1, hy2, ?_⟩)
            rw [capL_tail _ _ h]
            simp

theorem capL_pp4_range (cap : List Char) (h : CapL pp4 none none cap) :
    (parseDec cap).1 ≤ 100 * 10 ^ (parseDec cap).2 := by
  rw [show pp4 = [.wb, .grp ccBody, .wb] from rfl] at h
  cases h with
  | wb h =>
  cases h with
  | grp h =>
  cases h with
  | gbeg h =>
  rw [show ccBody ++ [RItem.gend, RItem.wb] =
      .alt [.opt [.cls d04], .cls isDig] [.lit '5', .lit '0'] ::
      .opt [.lit '.', .repg 1 2 isDig] :: [.gend, .wb] from rfl] at h
  cases h with
  | alt_l h =>
    simp only [List.cons_append, List.nil_append] at h
    cases h with
    | opt_yes h =>
      simp only [List.cons_append, List.nil_append] at h
      cases h with
      | cls hx1 h =>
        rename_i x1
        simp only [Option.map_some'] at h
        cases h with
        | cls hx2 h =>
          rename_i x2
          simp only [Option.map_some'] at h
          have hI : ∀ c ∈ [x1, x2], isDig c = true := by
            intro c hc
            rcases List.mem_cons.mp hc with rfl | hc
            · have := d04_bounds hx1
              simp [isDig]
              omega
            · simp at hc
              subst hc
              exact hx2
          have hIv : toNatD [x1, x2] ≤ 50 := by
            have h1 := d04_bounds hx1
            have h2 := isDig_bounds hx2
            have : toNatD [x1, x2] = (x1.toNat - 48) * 10 + (x2.toNat - 48) := by
              simp [toNatD]
            omega
          rcases capL_fracpart _ _ h with hc | ⟨y1, hy1, hc⟩ | ⟨y1, y2, hy1, hy2, hc⟩
          · subst hc
            exact parseDec_le_nofrac _ (by simpa using hI) hIv
          · subst hc
            exact parseDec_le_frac [x1, x2] [y1] (by simpa using hI)
              (by intro c hc; simp at hc; subst hc; exact hy1) hIv
          · subst hc
            refine parseDec_le_frac [x1, x2] [y1, y2] (by simpa using hI) ?_ hIv
            intro c hc
            rcases List.mem_cons.mp hc with rfl | hc
            · exact hy1
            · simp at hc; subst hc; exact hy2
    | opt_no h =>
      cases h with
      | cls hx2 h =>
        rename_i x2
        simp only [Option.map_some'] at h
        have hI : ∀ c ∈ [x2], isDig c = true := by
          intro c hc
          simp at hc
          subst hc
          exact hx2
        have hIv : toNatD [x2] ≤ 50 := by
          have h2 := isDig_bounds hx2
          have : toNatD [x2] = x2.toNat - 48 := by simp [toNatD]
          omega
        rcases capL_fracpart _ _ h with hc | ⟨y1, hy1, hc⟩ | ⟨y1, y2, hy1, hy2, hc⟩
        · subst hc
          exact parseDec_le_nofrac _ (by simpa using hI) hIv
        · subst hc
          exact parseDec_le_frac [x2] [y1] (by simpa using hI)
            (by intro c hc; simp at hc; subst hc; exact hy1) hIv
        · subst hc
          refine parseDec_le_frac [x2] [y1, y2] (by simpa using hI) ?_ hIv
          intro c hc
          rcases List.mem_cons.mp hc with rfl | hc
          · exact hy1
          · simp at hc; subst hc; exact hy2
  | alt_r h =>
    simp only [List.cons_append, List.nil_append] at h
    cases h with
    | lit h =>
      simp only [Option.map_some'] at h
      cases h with
      | lit h =>
        simp only [Option.map_some'] at h
        have hI : ∀ c ∈ ['5', '0'], isDig c = true := by decide
        have hIv : toNatD ['5', '0'] ≤ 50 := by decide
        rcases capL_fracpart _ _ h with hc | ⟨y1, hy1, hc⟩ | ⟨y1, y2, hy1, hy2, hc⟩
        · subst hc
          exact parseDec_le_nofrac _ (by simpa using hI) hIv
        · subst hc
          exact parseDec_le_frac ['5', '0'] [y1] (by simpa using hI)
            (by intro c hc; simp at hc; subst hc; exact hy1) hIv
        · subst hc
          refine parseDec_le_frac ['5', '0'] [y1, y2] (by simpa using hI) ?_ hIv
          intro c hc
          rcases List.mem_cons.mp hc with rfl | hc
          · exact hy1
          · simp at hc; subst hc; exact hy2

theorem searchText_inv (items : List RItem) :
    ∀ s prev cap p rest, searchText items prev s = some (cap, p, rest) →
      ∃ pr s1, runPat items pr s1 = .ok cap p rest := by
  intro s
  induction s with
  | nil =>
    intro prev cap p rest h
    rw [searchText] at h
    cases hr : runPat items prev [] with
    | ok c1 p1 r1 =>
      rw [hr] at h
      simp only [Option.some.injEq, Prod.mk.injEq] at h
      obtain ⟨h1, h2, h3⟩ := h
      subst h1; subst h2; subst h3
      exact ⟨prev, [], hr⟩
    | fail => rw [hr] at h; simp at h
    | out => rw [hr] at h; simp at h
  | cons x t ih =>
    intro prev cap p rest h
    rw [searchText] at h
    cases hr : runPat items prev (x :: t) with
    | ok c1 p1 r1 =>
      rw [hr] at h
      simp only [Option.some.injEq, Prod.mk.injEq] at h
      obtain ⟨h1, h2, h3⟩ := h
      subst h1; subst h2; subst h3
      exact ⟨prev, x :: t, hr⟩
    | fail => rw [hr] at h; exact ih (some x) cap p rest h
    | out => rw [hr] at h; exact ih (some x) cap p rest h

theorem search_capL (items : List RItem) (text cap : List Char) (p : Option Char)
    (rest : List Char) (h : search items text = some (cap, p, rest)) :
    CapL items none none cap := by
  obtain ⟨pr, s1, hr⟩ := searchText_inv items text none cap p rest h
  exact mrunF_capL _ _ _ _ _ _ _ _ _ hr

theorem findall_head (items : List RItem) (text cap : List Char) (p : Option Char)
    (rest : List Char) (h : search items text = some (cap, p, rest)) :
    ∃ l, findall items text = cap :: l := by
  unfold search at h
  unfold findall
  rw [findallTextF, h]
  change ∃ l, (if rest.length < text.length
      then cap :: findallTextF items text.length p rest
      else match rest with
        | [] => [cap]
        | x :: t => cap :: findallTextF items text.length (some x) t) = cap :: l
  by_cases hlen : rest.length < text.length
  · rw [if_pos hlen]
    exact ⟨_, rfl⟩
  · rw [if_neg hlen]
    cases rest with
    | nil => exact ⟨[], rfl⟩
    | cons x t => exact ⟨_, rfl⟩

theorem getLast?_cons_cons (x y : Char) (t : List Char) :
    (x :: y :: t).getLast? = (y :: t).getLast? := by
  simp [List.getLast?]

theorem searchText_isSome_of (items : List RItem) :
    ∀ s pr n, n ≤ s.length → isOkB (runPat items (prevAt pr s n) (s.drop n)) = true →
      (searchText items pr s).isSome = true := by
  intro s
  induction s with
  | nil =>
    intro pr n hn h
    have hn0 : n = 0 := Nat.le_zero.mp hn
    subst hn0
    have hp0 : prevAt pr [] 0 = pr := by simp [prevAt]
    rw [hp0, List.drop_nil] at h
    rw [searchText]
    cases hr : runPat items pr [] with
    | ok c1 p1 r1 => simp
    | fail => rw [hr] at h; simp [isOkB] at h
    | out => rw [hr] at h; simp [isOkB] at h
  | cons x t ih =>
    intro pr n hn h
    rw [searchText]
    cases hr : runPat items pr (x :: t) with
    | ok c1 p1 r1 => simp
    | fail =>
      cases n with
      | zero =>
        have hp0 : prevAt pr (x :: t) 0 = pr := by simp [prevAt]
        rw [hp0, List.drop_zero, hr] at h
        simp [isOkB] at h
      | succ m =>
        have hpa : prevAt pr (x :: t) (m + 1) = prevAt (some x) t m := by
          cases m with
          | zero => simp [prevAt]
          | succ m2 =>
            cases t with
            | nil => simp at hn
            | cons y t2 =>
              simp only [prevAt, if_neg (Nat.succ_ne_zero _), List.take_succ_cons]
              rw [getLast?_cons_cons]
        rw [hpa, List.drop_succ_cons] at h
        exact ih (some x) m (by simpa using hn) h
    | out =>
      cases n with
      | zero =>
        have hp0 : prevAt pr (x :: t) 0 = pr := by simp [prevAt]
        rw [hp0, List.drop_zero, hr] at h
        simp [isOkB] at h
      | succ m =>
        have hpa : prevAt pr (x :: t) (m + 1) = prevAt (some x) t m := by
          cases m with
          | zero => simp [prevAt]
          | succ m2 =>
            cases t with
            | nil => simp at hn
            | cons y t2 =>
              simp only [prevAt, if_neg (Nat.succ_ne_zero _), List.take_succ_cons]
              rw [getLast?_cons_cons]
        rw [hpa, List.drop_succ_cons] at h
        exact ih (some x) m (by simpa using hn) h

theorem scoreLoop_none_inv (text : List Char) :
    ∀ ps st, scoreLoop text ps st = none →
      st = none ∧ ∀ p ∈ ps, firstInRange (findall p text) = none := by
  intro ps
  induction ps with
  | nil =>
    intro st h
    rw [scoreLoop] at h
    exact ⟨h, by simp⟩
  | cons p ps ih =>
    intro st h
    rw [scoreLoop] at h
    cases hf : firstInRange (findall p text) with
    | some v =>
      rw [hf] at h
      by_cases ht : truthyDec (some v) = true
      · rw [if_pos ht] at h
        simp at h
      · rw [if_neg ht] at h
        have := (ih _ h).1
        simp at this
    | none =>
      rw [hf] at h
      by_cases ht : truthyDec st = true
      · rw [if_pos ht] at h
        have h2 : st = none := h
        rw [h2] at ht
        simp [truthyDec] at ht
      · rw [if_neg ht] at h
        obtain ⟨h1, h2⟩ := ih _ h
        refine ⟨h1, ?_⟩
        intro q hq
        rcases List.mem_cons.mp hq with rfl | hq
        · exact hf
        · exact h2 q hq

/-- Claim C7: if none of the labeled patterns matches, the final catch-all
accepts any standalone number the pattern `\b((?:[0-4]?[0-9]|50)(?:\.\d{1,2})?)\b`
matches, taking the first one in text order (the leftmost `re.search` match);
consequently, whenever the catch-all matches anywhere in the page text, the
resulting `ESG_Score` is non-`None` — every capture of this pattern is provably
in the accepted range `[0, 100]`, so the range filter cannot reject it. -/
theorem c7_catch_all (text : List Char) :
    (∀ cap p rest, findall pp1 text = [] → findall pp2 text = [] →
      findall pp3 text = [] → search pp4 text = some (cap, p, rest) →
      extractSustainScore text = some (parseDec cap)) ∧
    (∀ n, n ≤ text.length →
      isOkB (runPat pp4 (prevAt none text n) (text.drop n)) = true →
      extractSustainScore text ≠ none) := by
  constructor
  · intro cap p rest h1 h2 h3 h4
    have hrange := capL_pp4_range cap (search_capL pp4 text cap p rest h4)
    obtain ⟨l, hfa⟩ := findall_head pp4 text cap p rest h4
    have hcond : 0 ≤ (parseDec cap).1 ∧
        (parseDec cap).1 ≤ 100 * 10 ^ (parseDec cap).2 := ⟨Nat.zero_le _, hrange⟩
    simp [extractSustainScore, sustain_score_patterns, scoreLoop, h1, h2, h3, hfa,
      firstInRange, truthyDec, hcond, ite_self]
  · intro n hn hok hnone
    have hsome := searchText_isSome_of pp4 text none n hn hok
    obtain ⟨⟨cap, p, rest⟩, hs⟩ := Option.isSome_iff_exists.mp hsome
    have hs' : search pp4 text = some (cap, p, rest) := hs
    have hrange := capL_pp4_range cap (search_capL pp4 text cap p rest hs')
    obtain ⟨l, hfa⟩ := findall_head pp4 text cap p rest hs'
    have hinv := scoreLoop_none_inv text sustain_score_patterns none hnone
    have hfi : firstInRange (findall pp4 text) = none :=
      hinv.2 pp4 (by simp [sustain_score_patterns])
    rw [hfa] at hfi
    have hcond : 0 ≤ (parseDec cap).1 ∧
        (parseDec cap).1 ≤ 100 * 10 ^ (parseDec cap).2 := ⟨Nat.zero_le _, hrange⟩
    simp [firstInRange, hcond] at hfi

/-- Claim C7 witness: on `"year 2023 value 42 end"` the labeled patterns find
nothing, the catch-all's leftmost match captures `42` (the standalone `2023` is
rejected by the word boundaries), and the extracted score is `42`. -/
theorem c7_catch_all_witness :
    extractSustainScore "year 2023 value 42 end".toList =
      some (parseDec "42".toList) :=
  (c7_catch_all "year 2023 value 42 end".toList).1 "42".toList (some '2')
    " end".toList (by decide) (by decide) (by decide) (by decide)

theorem char_toNat_ofNat {n : Nat} (h : n < 55296) : (Char.ofNat n).toNat = n := by
  have hv : Nat.isValidChar n := Or.inl h
  rw [Char.ofNat, dif_pos hv]
  rfl

theorem swapCase_toNat_lower {c : Char} (h1 : 97 ≤ c.toNat) (h2 : c.toNat ≤ 122) :
    (swapCase c).toNat = c.toNat - 32 := by
  rw [swapCase, if_pos (by simp [h1, h2])]
  exact char_toNat_ofNat (by omega)

theorem swapCase_toNat_upper {c : Char} (h1 : 65 ≤ c.toNat) (h2 : c.toNat ≤ 90) :
    (swapCase c).toNat = c.toNat + 32 := by
  rw [swapCase, if_neg (by simp; omega), if_pos (by simp [h1, h2])]
  exact char_toNat_ofNat (by omega)

theorem swapCase_eq_self {c : Char} (h1 : ¬(97 ≤ c.toNat ∧ c.toNat ≤ 122))
    (h2 : ¬(65 ≤ c.toNat ∧ c.toNat ≤ 90)) : swapCase c = c := by
  rw [swapCase, if_neg (by simp; omega), if_neg (by simp; omega)]

theorem swapCase_of_isDig {c : Char} (h : isDig c = true) : swapCase c = c := by
  have := isDig_bounds h
  exact swapCase_eq_self (by omega) (by omega)

theorem isDig_swapCase (c : Char) : isDig (swapCase c) = isDig c := by
  by_cases h1 : 97 ≤ c.toNat ∧ c.toNat ≤ 122
  · have ht := swapCase_toNat_lower h1.1 h1.2
    have ha : isDig (swapCase c) = false := by simp [isDig, ht] <;> omega
    have hb : isDig c = false := by simp [isDig] <;> omega
    rw [ha, hb]
  · by_cases h2 : 65 ≤ c.toNat ∧ c.toNat ≤ 90
    · have ht := swapCase_toNat_upper h2.1 h2.2
      have ha : isDig (swapCase c) = false := by simp [isDig, ht] <;> omega
      have hb : isDig c = false := by simp [isDig] <;> omega
      rw [ha, hb]
    · rw [swapCase_eq_self h1 h2]

theorem d04_swapCase (c : Char) : d04 (swapCase c) = d04 c := by
  by_cases h1 : 97 ≤ c.toNat ∧ c.toNat ≤ 122
  · have ht := swapCase_toNat_lower h1.1 h1.2
    have ha : d04 (swapCase c) = false := by simp [d04, ht] <;> omega
    have hb : d04 c = false := by simp [d04] <;> omega
    rw [ha, hb]
  · by_cases h2 : 65 ≤ c.toNat ∧ c.toNat ≤ 90
    · have ht := swapCase_toNat_upper h2.1 h2.2
      have ha : d04 (swapCase c) = false := by simp [d04, ht] <;> omega
      have hb : d04 c = false := by simp [d04] <;> omega
      rw [ha, hb]
    · rw [swapCase_eq_self h1 h2]

theorem wsp_swapCase (c : Char) : wsp (swapCase c) = wsp c := by
  by_cases h1 : 97 ≤ c.toNat ∧ c.toNat ≤ 122
  · have ht := swapCase_toNat_lower h1.1 h1.2
    have ha : wsp (swapCase c) = false := by simp [wsp, ht] <;> omega
    have hb : wsp c = false := by simp [wsp] <;> omega
    rw [ha, hb]
  · by_cases h2 : 65 ≤ c.toNat ∧ c.toNat ≤ 90
    · have ht := swapCase_toNat_upper h2.1 h2.2
      have ha : wsp (swapCase c) = false := by simp [wsp, ht] <;> omega
      have hb : wsp c = false := by simp [wsp] <;> omega
      rw [ha, hb]
    · rw [swapCase_eq_self h1 h2]

theorem wspColon_swapCase (c : Char) : wspColon (swapCase c) = wspColon c := by
  by_cases h1 : 97 ≤ c.toNat ∧ c.toNat ≤ 122
  · have ht := swapCase_toNat_lower h1.1 h1.2
    have ha : wspColon (swapCase c) = false := by simp [wspColon, wsp, ht] <;> omega
    have hb : wspColon c = false := by simp [wspColon, wsp] <;> omega
    rw [ha, hb]
  · by_cases h2 : 65 ≤ c.toNat ∧ c.toNat ≤ 90
    · have ht := swapCase_toNat_upper h2.1 h2.2
      have ha : wspColon (swapCase c) = false := by simp [wspColon, wsp, ht] <;> omega
      have hb : wspColon c = false := by simp [wspColon, wsp] <;> omega
      rw [ha, hb]
    · rw [swapCase_eq_self h1 h2]

theorem notNL_swapCase (c : Char) : notNL (swapCase c) = notNL c := by
  by_cases h1 : 97 ≤ c.toNat ∧ c.toNat ≤ 122
  · have ht := swapCase_toNat_lower h1.1 h1.2
    have ha : notNL (swapCase c) = true := by simp [notNL, ht] <;> omega
    have hb : notNL c = true := by simp [notNL] <;> omega
    rw [ha, hb]
  · by_cases h2 : 65 ≤ c.toNat ∧ c.toNat ≤ 90
    · have ht := swapCase_toNat_upper h2.1 h2.2
      have ha : notNL (swapCase c) = true := by simp [notNL, ht] <;> omega
      have hb : notNL c = true := by simp [notNL] <;> omega
      rw [ha, hb]
    · rw [swapCase_eq_self h1 h2]

theorem isWordC_swapCase (c : Char) : isWordC (swapCase c) = isWordC c := by
  by_cases h1 : 97 ≤ c.toNat ∧ c.toNat ≤ 122
  · have ht := swapCase_toNat_lower h1.1 h1.2
    have ha : isWordC (swapCase c) = true := by simp [isWordC, isDig, ht] <;> omega
    have hb : isWordC c = true := by simp [isWordC, isDig] <;> omega
    rw [ha, hb]
  · by_cases h2 : 65 ≤ c.toNat ∧ c.toNat ≤ 90
    · have ht := swapCase_toNat_upper h2.1 h2.2
      have ha : isWordC (swapCase c) = true := by simp [isWordC, isDig, ht] <;> omega
      have hb : isWordC c = true := by simp [isWordC, isDig] <;> omega
      rw [ha, hb]
    · rw [swapCase_eq_self h1 h2]

theorem lowerA_swapCase (c : Char) : lowerA (swapCase c) = lowerA c := by
  by_cases h1 : 97 ≤ c.toNat ∧ c.toNat ≤ 122
  · have ht := swapCase_toNat_lower h1.1 h1.2
    rw [lowerA, if_pos (by simp [ht] <;> omega), ht]
    rw [lowerA, if_neg (by simp <;> omega)]
    rw [show c.toNat - 32 + 32 = c.toNat by omega]
    exact Char.ofNat_toNat c
  · by_cases h2 : 65 ≤ c.toNat ∧ c.toNat ≤ 90
    · have ht := swapCase_toNat_upper h2.1 h2.2
      rw [lowerA, if_neg (by simp [ht] <;> omega), show lowerA c = Char.ofNat (c.toNat + 32) by
        rw [lowerA, if_pos (by simp [h2.1, h2.2])]]
      rw [← ht, Char.ofNat_toNat]
    · rw [swapCase_eq_self h1 h2]

theorem eqCI_swapCase (x c : Char) : eqCI (swapCase x) c = eqCI x c := by
  rw [eqCI, eqCI, lowerA_swapCase]

theorem swapCase_invol (c : Char) : swapCase (swapCase c) = c := by
  by_cases h1 : 97 ≤ c.toNat ∧ c.toNat ≤ 122
  · have ht := swapCase_toNat_lower h1.1 h1.2
    rw [show swapCase (swapCase c) = Char.ofNat ((swapCase c).toNat + 32) from by
      rw [swapCase, if_neg (by simp [ht] <;> omega), if_pos (by simp [ht] <;> omega)]]
    rw [ht, show c.toNat - 32 + 32 = c.toNat by omega, Char.ofNat_toNat]
  · by_cases h2 : 65 ≤ c.toNat ∧ c.toNat ≤ 90
    · have ht := swapCase_toNat_upper h2.1 h2.2
      rw [show swapCase (swapCase c) = Char.ofNat ((swapCase c).toNat - 32) from by
        rw [swapCase, if_pos (by simp [ht] <;> omega)]]
      rw [ht, show c.toNat + 32 - 32 = c.toNat by omega, Char.ofNat_toNat]
    · rw [swapCase_eq_self h1 h2, swapCase_eq_self h1 h2]

theorem map_swap_acc (acc : Option (List Char)) (x : Char) :
    (acc.map (List.map swapCase)).map (fun l => swapCase x :: l) =
      (acc.map (fun l => x :: l)).map (List.map swapCase) := by
  cases acc <;> simp

theorem map_push (acc : Option (List Char)) (x : Char) :
    (Option.map (List.map swapCase) acc).map (fun l => swapCase x :: l) =
      (acc.map (fun l => x :: l)).map (List.map swapCase) := by
  cases acc <;> simp

theorem getD_map_swap (done : Option (List Char)) :
    (done.map (List.map swapCase)).getD [] = (done.getD []).map swapCase := by
  cases done <;> simp

theorem mapS_orElseR (a : MRes) (b : Unit → MRes) :
    MRes.mapS (MRes.orElseR a b) =
      MRes.orElseR (MRes.mapS a) (fun u => MRes.mapS (b u)) := by
  cases a <;> simp [MRes.orElseR, MRes.mapS]

theorem isWordO_swap (prev : Option Char) :
    isWordO (prev.map swapCase) = isWordO prev := by
  cases prev <;> simp [isWordO, isWordC_swapCase]

theorem isWordNext_swap (s : List Char) :
    isWordNext (s.map swapCase) = isWordNext s := by
  cases s <;> simp [isWordNext, isWordC_swapCase]

/-- Case-swap equivariance of the matcher: on a pattern whose literals and
classes cannot distinguish letter case (`CIOK`), swapping the case of the text
(and of the carried state) swaps the case of the result and nothing else. -/
theorem mrunF_swap :
    ∀ f items prev s acc done, CIOK items →
      mrunF f items (prev.map swapCase) (s.map swapCase)
        (acc.map (List.map swapCase)) (done.map (List.map swapCase)) =
      MRes.mapS (mrunF f items prev s acc done) := by
  intro f
  induction f with
  | zero => intros; simp [mrunF, MRes.mapS]
  | succ f ih =>
    intro items prev s acc done hCI
    cases items with
    | nil => simp [mrunF, MRes.mapS, getD_map_swap]
    | cons it rest =>
      cases it with
      | lit ch =>
        simp only [CIOK] at hCI
        obtain ⟨hch, hrest⟩ := hCI
        cases s with
        | nil => simp [mrunF, MRes.mapS]
        | cons x t =>
          simp only [List.map_cons, mrunF]
          by_cases hx : x = ch
          · subst hx
            rw [if_pos hch, if_pos rfl, map_push]
            have hIH := ih rest (some x) t (acc.map (fun l => x :: l)) done hrest
            simp only [Option.map_some'] at hIH
            rw [hch] at hIH ⊢
            exact hIH
          · rw [if_neg (fun h => hx (by rw [← swapCase_invol x, h, hch])), if_neg hx]
            simp [MRes.mapS]
      | litCI ch =>
        simp only [CIOK] at hCI
        cases s with
        | nil => simp [mrunF, MRes.mapS]
        | cons x t =>
          simp only [List.map_cons, mrunF]
          by_cases hx : eqCI x ch = true
          · rw [if_pos (by rw [eqCI_swapCase]; exact hx), if_pos hx, map_push]
            have hIH := ih rest (some x) t (acc.map (fun l => x :: l)) done hCI
            simp only [Option.map_some'] at hIH
            exact hIH
          · rw [if_neg (by rw [eqCI_swapCase]; exact hx), if_neg hx]
            simp [MRes.mapS]
      | cls p =>
        simp only [CIOK] at hCI
        obtain ⟨hp, hrest⟩ := hCI
        cases s with
        | nil => simp [mrunF, MRes.mapS]
        | cons x t =>
          simp only [List.map_cons, mrunF]
          by_cases hx : p x = true
          · rw [if_pos (by rw [hp x]; exact hx), if_pos hx, map_push]
            have hIH := ih rest (some x) t (acc.map (fun l => x :: l)) done hrest
            simp only [Option.map_some'] at hIH
            exact hIH
          · rw [if_neg (by rw [hp x]; exact hx), if_neg hx]
            simp [MRes.mapS]
      | starG p =>
        have hCI2 := hCI
        simp only [CIOK] at hCI2
        obtain ⟨hp, hrest⟩ := hCI2
        cases s with
        | nil =>
          simp only [List.map_nil, mrunF]
          exact ih rest prev [] acc done hrest
        | cons x t =>
          simp only [List.map_cons, mrunF]
          by_cases hx : p x = true
          · rw [if_pos (by rw [hp x]; exact hx), if_pos hx, mapS_orElseR]
            congr 1
            · rw [map_push]
              have hIH := ih (.starG p :: rest) (some x) t
                (acc.map (fun l => x :: l)) done hCI
              simp only [Option.map_some'] at hIH
              exact hIH
            · funext u
              have hIH := ih rest prev (x :: t) acc done hrest
              simpa using hIH
          · rw [if_neg (by rw [hp x]; exact hx), if_neg hx]
            have hIH := ih rest prev (x :: t) acc done hrest
            simpa using hIH
      | starL p =>
        have hCI2 := hCI
        simp only [CIOK] at hCI2
        obtain ⟨hp, hrest⟩ := hCI2
        cases s with
        | nil =>
          simp only [List.map_nil, mrunF]
          exact ih rest prev [] acc done hrest
        | cons x t =>
          simp only [List.map_cons, mrunF]
          rw [mapS_orElseR]
          congr 1
          · have hIH := ih rest prev (x :: t) acc done hrest
            simpa using hIH
          · funext u
            by_cases hx : p x = true
            · rw [if_pos (by rw [hp x]; exact hx), if_pos hx, map_push]
              have hIH := ih (.starL p :: rest) (some x) t
                (acc.map (fun l => x :: l)) done hCI
              simp only [Option.map_some'] at hIH
              exact hIH
            · rw [if_neg (by rw [hp x]; exact hx), if_neg hx]
              simp [MRes.mapS]
      | repg lo hi p =>
        have hCI2 := hCI
        simp only [CIOK] at hCI2
        obtain ⟨hp, hrest⟩ := hCI2
        cases hi with
        | zero =>
          simp only [mrunF]
          by_cases hlo : lo = 0
          · rw [if_pos hlo, if_pos hlo]
            exact ih rest prev s acc done hrest
          · rw [if_neg hlo, if_neg hlo]
            simp [MRes.mapS]
        | succ hh =>
          cases s with
          | nil =>
            simp only [List.map_nil, mrunF]
            by_cases hlo : lo = 0
            · rw [if_pos hlo, if_pos hlo]
              exact ih rest prev [] acc done hrest
            · rw [if_neg hlo, if_neg hlo]
              simp [MRes.mapS]
          | cons x t =>
            simp only [List.map_cons, mrunF]
            by_cases hx : p x = true
            · rw [if_pos (by rw [hp x]; exact hx), if_pos hx, mapS_orElseR]
              congr 1
              · rw [map_push]
                have hck : CIOK (.repg (lo - 1) hh p :: rest) := by
                  simp only [CIOK]
                  exact ⟨hp, hrest⟩
                have hIH := ih (.repg (lo - 1) hh p :: rest) (some x) t
                  (acc.map (fun l => x :: l)) done hck
                simp only [Option.map_some'] at hIH
                exact hIH
              · funext u
                by_cases hlo : lo = 0
                · rw [if_pos hlo, if_pos hlo]
                  have hIH := ih rest prev (x :: t) acc done hrest
                  simpa using hIH
                · rw [if_neg hlo, if_neg hlo]
                  simp [MRes.mapS]
            · rw [if_neg (by rw [hp x]; exact hx), if_neg hx]
              by_cases hlo : lo = 0
              · rw [if_pos hlo, if_pos hlo]
                have hIH := ih rest prev (x :: t) acc done hrest
                simpa using hIH
              · rw [if_neg hlo, if_neg hlo]
                simp [MRes.mapS]
      | opt r =>
        simp only [CIOK] at hCI
        obtain ⟨h1, h2⟩ := hCI
        simp only [mrunF, mapS_orElseR]
        congr 1
        · exact ih (r ++ rest) prev s acc done h1
        · funext u
          exact ih rest prev s acc done h2
      | alt a b =>
        simp only [CIOK] at hCI
        obtain ⟨h1, h2⟩ := hCI
        simp only [mrunF, mapS_orElseR]
        congr 1
        · exact ih (a ++ rest) prev s acc done h1
        · funext u
          exact ih (b ++ rest) prev s acc done h2
      | grp r =>
        simp only [CIOK] at hCI
        simp only [mrunF]
        refine ih (.gbeg :: (r ++ .gend :: rest)) prev s acc done ?_
        simp only [CIOK]
        exact hCI
      | gbeg =>
        simp only [CIOK] at hCI
        simp only [mrunF]
        have hIH := ih rest prev s (some []) done hCI
        simpa using hIH
      | gend =>
        simp only [CIOK] at hCI
        simp only [mrunF]
        cases acc with
        | none =>
          have hIH := ih rest prev s none done hCI
          simpa using hIH
        | some l =>
          have hIH := ih rest prev s none (some l.reverse) hCI
          simpa using hIH
      | wb =>
        simp only [CIOK] at hCI
        simp only [mrunF, isWordO_swap, isWordNext_swap]
        by_cases hb : (isWordO prev != isWordNext s) = true
        · rw [if_pos hb, if_pos hb]
          exact ih rest prev s acc done hCI
        · rw [if_neg hb, if_neg hb]
          simp [MRes.mapS]

/-- Captures of a pattern whose group bodies consume only digits (`POut`)
consist of digits. -/
theorem capL_digits {items : List RItem} {acc done : Option (List Char)}
    {cap : List Char} (h : CapL items acc done cap) :
    ∀ (_ : match acc with
           | none => POut items
           | some l => PIn items ∧ ∀ c ∈ l, isDig c = true)
      (_ : ∀ c ∈ done.getD [], isDig c = true),
      ∀ c ∈ cap, isDig c = true := by
  induction h with
  | fin =>
    intro hacc hdone
    exact hdone
  | lit h ih =>
    rename_i ch rest acc done cap
    intro hacc hdone
    cases acc with
    | none =>
      simp only [POut] at hacc
      exact ih hacc hdone
    | some l =>
      obtain ⟨hpin, hdig⟩ := hacc
      simp only [PIn] at hpin
      obtain ⟨hc, hrest⟩ := hpin
      refine ih ⟨hrest, ?_⟩ hdone
      intro d hd
      rcases List.mem_cons.mp hd with rfl | hd
      · exact hc
      · exact hdig d hd
  | litCI hx h ih =>
    rename_i x ch rest acc done cap
    intro hacc hdone
    cases acc with
    | none =>
      simp only [POut] at hacc
      exact ih hacc hdone
    | some l =>
      obtain ⟨hpin, hdig⟩ := hacc
      simp only [PIn] at hpin
      obtain ⟨hc, hrest⟩ := hpin
      refine ih ⟨hrest, ?_⟩ hdone
      intro d hd
      rcases List.mem_cons.mp hd with rfl | hd
      · exact hc _ hx
      · exact hdig d hd
  | cls hx h ih =>
    rename_i x p rest acc done cap
    intro hacc hdone
    cases acc with
    | none =>
      simp only [POut] at hacc
      exact ih hacc hdone
    | some l =>
      obtain ⟨hpin, hdig⟩ := hacc
      simp only [PIn] at hpin
      obtain ⟨hc, hrest⟩ := hpin
      refine ih ⟨hrest, ?_⟩ hdone
      intro d hd
      rcases List.mem_cons.mp hd with rfl | hd
      · exact hc _ hx
      · exact hdig d hd
  | starG_skip h ih =>
    intro hacc hdone
    rename_i p rest acc done cap
    cases acc with
    | none =>
      simp only [POut] at hacc
      exact ih hacc hdone
    | some l =>
      obtain ⟨hpin, hdig⟩ := hacc
      simp only [PIn] at hpin
      exact ih ⟨hpin.2, hdig⟩ hdone
  | starG_take hx h ih =>
    rename_i x p rest acc done cap
    intro hacc hdone
    cases acc with
    | none => exact ih hacc hdone
    | some l =>
      obtain ⟨hpin, hdig⟩ := hacc
      have hcls := hpin
      simp only [PIn] at hcls
      refine ih ⟨hpin, ?_⟩ hdone
      intro d hd
      rcases List.mem_cons.mp hd with rfl | hd
      · exact hcls.1 _ hx
      · exact hdig d hd
  | starL_skip h ih =>
    intro hacc hdone
    rename_i p rest acc done cap
    cases acc with
    | none =>
      simp only [POut] at hacc
      exact ih hacc hdone
    | some l =>
      obtain ⟨hpin, hdig⟩ := hacc
      simp only [PIn] at hpin
      exact ih ⟨hpin.2, hdig⟩ hdone
  | starL_take hx h ih =>
    rename_i x p rest acc done cap
    intro hacc hdone
    cases acc with
    | none => exact ih hacc hdone
    | some l =>
      obtain ⟨hpin, hdig⟩ := hacc
      have hcls := hpin
      simp only [PIn] at hcls
      refine ih ⟨hpin, ?_⟩ hdone
      intro d hd
      rcases List.mem_cons.mp hd with rfl | hd
      · exact hcls.1 _ hx
      · exact hdig d hd
  | repg_stop h ih =>
    intro hacc hdone
    rename_i hi p rest acc done cap
    cases acc with
    | none =>
      simp only [POut] at hacc
      exact ih hacc hdone
    | some l =>
      obtain ⟨hpin, hdig⟩ := hacc
      simp only [PIn] at hpin
      exact ih ⟨hpin.2, hdig⟩ hdone
  | repg_take hx h ih =>
    rename_i x lo hh p rest acc done cap
    intro hacc hdone
    cases acc with
    | none =>
      simp only [POut] at hacc
      refine ih ?_ hdone
      simp only [POut]
      exact hacc
    | some l =>
      obtain ⟨hpin, hdig⟩ := hacc
      simp only [PIn] at hpin
      refine ih ⟨by simp only [PIn]; exact hpin, ?_⟩ hdone
      intro d hd
      rcases List.mem_cons.mp hd with rfl | hd
      · exact hpin.1 _ hx
      · exact hdig d hd
  | opt_yes h ih =>
    intro hacc hdone
    rename_i r rest acc done cap
    cases acc with
    | none =>
      simp only [POut] at hacc
      exact ih hacc.1 hdone
    | some l =>
      obtain ⟨hpin, hdig⟩ := hacc
      simp only [PIn] at hpin
      exact ih ⟨hpin.1, hdig⟩ hdone
  | opt_no h ih =>
    intro hacc hdone
    rename_i r rest acc done cap
    cases acc with
    | none =>
      simp only [POut] at hacc
      exact ih hacc.2 hdone
    | some l =>
      obtain ⟨hpin, hdig⟩ := hacc
      simp only [PIn] at hpin
      exact ih ⟨hpin.2, hdig⟩ hdone
  | alt_l h ih =>
    intro hacc hdone
    rename_i a b rest acc done cap
    cases acc with
    | none =>
      simp only [POut] at hacc
      exact ih hacc.1 hdone
    | some l =>
      obtain ⟨hpin, hdig⟩ := hacc
      simp only [PIn] at hpin
      exact ih ⟨hpin.1, hdig⟩ hdone
  | alt_r h ih =>
    intro hacc hdone
    rename_i a b rest acc done cap
    cases acc with
    | none =>
      simp only [POut] at hacc
      exact ih hacc.2 hdone
    | some l =>
      obtain ⟨hpin, hdig⟩ := hacc
      simp only [PIn] at hpin
      exact ih ⟨hpin.2, hdig⟩ hdone
  | grp h ih =>
    intro hacc hdone
    rename_i r rest acc done cap
    cases acc with
    | none =>
      simp only [POut] at hacc
      refine ih ?_ hdone
      simp only [POut]
      exact hacc
    | some l =>
      obtain ⟨hpin, hdig⟩ := hacc
      simp only [PIn] at hpin
  | gbeg h ih =>
    intro hacc hdone
    rename_i rest acc done cap
    cases acc with
    | none =>
      simp only [POut] at hacc
      exact ih ⟨hacc, by simp⟩ hdone
    | some l =>
      obtain ⟨hpin, hdig⟩ := hacc
      simp only [PIn] at hpin
  | gend h ih =>
    intro hacc hdone
    rename_i rest acc done cap
    cases acc with
    | none =>
      simp only [POut] at hacc
      exact ih hacc hdone
    | some l =>
      obtain ⟨hpin, hdig⟩ := hacc
      simp only [PIn] at hpin
      refine ih hpin ?_
      intro d hd
      simp only [Option.getD_some] at hd
      exact hdig d (List.mem_reverse.mp hd)
  | wb h ih =>
    intro hacc hdone
    rename_i rest acc done cap
    cases acc with
    | none =>
      simp only [POut] at hacc
      exact ih hacc hdone
    | some l =>
      obtain ⟨hpin, hdig⟩ := hacc
      simp only [PIn] at hpin
      exact ih ⟨hpin, hdig⟩ hdone

theorem runPat_swap (items : List RItem) (hCI : CIOK items) (prev : Option Char)
    (s : List Char) :
    runPat items (prev.map swapCase) (s.map swapCase) = MRes.mapS (runPat items prev s) := by
  unfold runPat
  rw [show patFuel (s.map swapCase) = patFuel s by simp [patFuel]]
  have h := mrunF_swap (patFuel s) items prev s none none hCI
  simpa using h

theorem searchText_unfold_nil (items : List RItem) (prev : Option Char) :
    searchText items prev [] =
      match runPat items prev [] with
      | .ok c p r => some (c, p, r)
      | _ => none := by
  rw [searchText]

theorem searchText_unfold_cons (items : List RItem) (prev : Option Char)
    (x : Char) (t : List Char) :
    searchText items prev (x :: t) =
      match runPat items prev (x :: t) with
      | .ok c p r => some (c, p, r)
      | _ => searchText items (some x) t := by
  rw [searchText]

theorem searchText_swap (items : List RItem) (hCI : CIOK items) :
    ∀ (s : List Char) (prev : Option Char),
      searchText items (prev.map swapCase) (s.map swapCase) =
        Option.map (fun r => (r.1.map swapCase, r.2.1.map swapCase, r.2.2.map swapCase))
          (searchText items prev s) := by
  intro s
  induction s with
  | nil =>
    intro prev
    rw [List.map_nil, searchText_unfold_nil items (prev.map swapCase),
      searchText_unfold_nil items prev]
    have hr := runPat_swap items hCI prev []
    simp only [List.map_nil] at hr
    rw [hr]
    cases runPat items prev [] <;> simp [MRes.mapS]
  | cons x t ih =>
    intro prev
    rw [List.map_cons,
      searchText_unfold_cons items (prev.map swapCase) (swapCase x) (List.map swapCase t),
      searchText_unfold_cons items prev x t]
    have hr := runPat_swap items hCI prev (x :: t)
    simp only [List.map_cons] at hr
    rw [hr]
    cases runPat items prev (x :: t) with
    | ok c p r => simp [MRes.mapS]
    | fail =>
      simp only [MRes.mapS]
      have hIH := ih (some x)
      simpa using hIH
    | out =>
      simp only [MRes.mapS]
      have hIH := ih (some x)
      simpa using hIH

theorem search_swap (items : List RItem) (hCI : CIOK items) (text : List Char) :
    search items (text.map swapCase) =
      Option.map (fun r => (r.1.map swapCase, r.2.1.map swapCase, r.2.2.map swapCase))
        (search items text) := by
  unfold search
  have := searchText_swap items hCI text none
  simpa using this

theorem map_swapCase_of_digits {cap : List Char} (h : ∀ c ∈ cap, isDig c = true) :
    cap.map swapCase = cap := by
  induction cap with
  | nil => rfl
  | cons c t ih =>
    rw [List.map_cons, swapCase_of_isDig (h c (by simp)),
      ih fun d hd => h d (by simp [hd])]

theorem firstScore_swap (text : List Char) :
    ∀ ps, (∀ p ∈ ps, CIOK p ∧ POut p) →
      firstScore (text.map swapCase) ps = firstScore text ps := by
  intro ps
  induction ps with
  | nil => intro _; rfl
  | cons p ps ih =>
    intro h
    obtain ⟨hCI, hPout⟩ := h p (by simp)
    have hrest := ih fun q hq => h q (List.mem_cons_of_mem _ hq)
    unfold firstScore
    rw [search_swap p hCI text]
    cases hsp : search p text with
    | none =>
      simp only [Option.map_none']
      exact hrest
    | some r =>
      obtain ⟨cap, pp, rr⟩ := r
      have hdig : ∀ c ∈ cap, isDig c = true :=
        capL_digits (search_capL p text cap pp rr hsp) hPout (by simp)
      simp only [Option.map_some', map_swapCase_of_digits hdig]
      by_cases hv : 0 ≤ toNatD cap ∧ toNatD cap ≤ 100
      · rw [if_pos hv, if_pos hv]
      · rw [if_neg hv, if_neg hv]
        exact hrest

theorem firstStars_swap (text : List Char) :
    ∀ ps, (∀ p ∈ ps, CIOK p ∧ POut p) →
      firstStars (text.map swapCase) ps = firstStars text ps := by
  intro ps
  induction ps with
  | nil => intro _; rfl
  | cons p ps ih =>
    intro h
    obtain ⟨hCI, hPout⟩ := h p (by simp)
    have hrest := ih fun q hq => h q (List.mem_cons_of_mem _ hq)
    unfold firstStars
    rw [search_swap p hCI text]
    cases hsp : search p text with
    | none =>
      simp only [Option.map_none']
      exact hrest
    | some r =>
      obtain ⟨cap, pp, rr⟩ := r
      have hdig : ∀ c ∈ cap, isDig c = true :=
        capL_digits (search_capL p text cap pp rr hsp) hPout (by simp)
      simp only [Option.map_some', map_swapCase_of_digits hdig]
      by_cases hv : 1 ≤ toNatD cap ∧ toNatD cap ≤ 5
      · rw [if_pos hv, if_pos hv]
      · rw [if_neg hv, if_neg hv]
        exact hrest

theorem CIOK_litCIs : ∀ (l : List Char) (rest : List RItem),
    CIOK (l.map RItem.litCI ++ rest) ↔ CIOK rest := by
  intro l
  induction l with
  | nil => intro rest; simp
  | cons c t ih =>
    intro rest
    rw [List.map_cons, List.cons_append, show CIOK (.litCI c :: (t.map RItem.litCI ++ rest)) =
      CIOK (t.map RItem.litCI ++ rest) from by simp only [CIOK]]
    exact ih rest

theorem POut_litCIs : ∀ (l : List Char) (rest : List RItem),
    POut (l.map RItem.litCI ++ rest) ↔ POut rest := by
  intro l
  induction l with
  | nil => intro rest; simp
  | cons c t ih =>
    intro rest
    rw [List.map_cons, List.cons_append, show POut (.litCI c :: (t.map RItem.litCI ++ rest)) =
      POut (t.map RItem.litCI ++ rest) from by simp only [POut]]
    exact ih rest

/-- Every GRESB pattern is case-insensitive (`re.IGNORECASE`) and captures
only digit strings. -/
theorem gresb_pattern_facts :
    (∀ p ∈ score_patterns, CIOK p ∧ POut p) ∧
    (∀ p ∈ star_patterns, CIOK p ∧ POut p) := by
  have hstar : swapCase '★' = '★' := by decide
  have hdash : swapCase '-' = '-' := by decide
  have hslash : swapCase '/' = '/' := by decide
  constructor
  · intro p hp
    simp only [score_patterns, List.mem_cons, List.not_mem_nil, or_false] at hp
    rcases hp with rfl | rfl | rfl | rfl | rfl
    · exact ⟨by simp [sp1, strCI, CIOK, CIOK_litCIs, wsp_swapCase, wspColon_swapCase,
        isDig_swapCase], by simp [sp1, strCI, POut, PIn, POut_litCIs]⟩
    · exact ⟨by simp [sp2, strCI, CIOK, CIOK_litCIs, wsp_swapCase, isDig_swapCase],
        by simp [sp2, strCI, POut, PIn, POut_litCIs]⟩
    · exact ⟨by simp [sp3, strCI, CIOK, CIOK_litCIs, wsp_swapCase, isDig_swapCase, hslash],
        by simp [sp3, strCI, POut, PIn, POut_litCIs]⟩
    · exact ⟨by simp [sp4, strCI, CIOK, CIOK_litCIs, wsp_swapCase, isDig_swapCase,
        notNL_swapCase], by simp [sp4, strCI, POut, PIn, POut_litCIs]⟩
    · exact ⟨by simp [sp5, strCI, CIOK, CIOK_litCIs, wsp_swapCase, isDig_swapCase],
        by simp [sp5, strCI, POut, PIn, POut_litCIs]⟩
  · intro p hp
    simp only [star_patterns, List.mem_cons, List.not_mem_nil, or_false] at hp
    rcases hp with rfl | rfl | rfl | rfl
    · exact ⟨by simp [st1, strCI, CIOK, CIOK_litCIs, wsp_swapCase, isDig_swapCase, hstar],
        by simp [st1, strCI, POut, PIn, POut_litCIs]⟩
    · exact ⟨by simp [st2, strCI, CIOK, CIOK_litCIs, wsp_swapCase, isDig_swapCase, hstar],
        by simp [st2, strCI, POut, PIn, POut_litCIs]⟩
    · exact ⟨by simp [st3, strCI, CIOK, CIOK_litCIs, wsp_swapCase, isDig_swapCase],
        by simp [st3, strCI, POut, PIn, POut_litCIs]⟩
    · exact ⟨by simp [st4, strCI, CIOK, CIOK_litCIs, wsp_swapCase, isDig_swapCase, hstar,
        hdash], by simp [st4, strCI, POut, PIn, POut_litCIs]⟩

/-- Claim C6 (counterexample): the risk-level keyword search is case-sensitive —
the texts `"Severe risk"` and `"severe risk"` differ only in the letter case of
the keyword occurrence, yet one yields a risk level and the other yields none. -/
theorem c6_case_counterexample :
    riskLevel "Severe risk".toList = some "Severe".toList ∧
    riskLevel "severe risk".toList = none ∧
    "severe risk".toList = "Severe risk".toList.map lowerA := by
  refine ⟨by decide, by decide, by decide⟩

/-- Claim C6 (amended): matching in the GRESB rating extractor is
case-insensitive — swapping the letter case of the page text never changes the
extracted score or stars — but the risk-level keyword search of the
Sustainalytics scraper is case-sensitive: a lowercase `"severe"` is not
recognized while `"Severe"` is. -/
theorem c6_gresb_ci_risk_cs :
    (∀ text : List Char,
      extract_gresb_rating (text.map swapCase) = extract_gresb_rating text) ∧
    riskLevel "Severe risk".toList = some "Severe".toList ∧
    riskLevel "severe risk".toList = none := by
  refine ⟨?_, by decide, by decide⟩
  intro text
  unfold extract_gresb_rating
  rw [firstScore_swap text score_patterns gresb_pattern_facts.1,
    firstStars_swap text star_patterns gresb_pattern_facts.2]

/-- Claim C6 (amended) witness: the invariance theorem applied at a concrete
text — upper-casing `"gresb score: 83"` does not change the extraction. -/
theorem c6_gresb_ci_risk_cs_witness :
    extract_gresb_rating "GRESB SCORE: 83".toList =
      extract_gresb_rating "gresb score: 83".toList := by
  have h := c6_gresb_ci_risk_cs.1 "gresb score: 83".toList
  have he : "gresb score: 83".toList.map swapCase = "GRESB SCORE: 83".toList := by decide
  rw [he] at h
  exact h

theorem orElseR_ne_out {a : MRes} {b : Unit → MRes} (ha : a ≠ .out)
    (hb : b () ≠ .out) : MRes.orElseR a b ≠ .out := by
  cases a with
  | ok c p r => simp [MRes.orElseR]
  | fail => simpa [MRes.orElseR] using hb
  | out => exact absurd rfl ha

theorem fuelA {n z z' f : Nat} (hz : z' < z) (h : (n + 1) * (z + 2) ≤ f + 1) :
    (n + 1) * (z' + 2) ≤ f := by
  have h1 : (n + 1) * (z' + 2) + (n + 1) = (n + 1) * (z' + 3) := by ring
  have h2 : (n + 1) * (z' + 3) ≤ (n + 1) * (z + 2) :=
    Nat.mul_le_mul_left _ (by omega)
  omega

theorem fuelB {n z z' f : Nat} (hz : z' ≤ z) (h : (n + 2) * (z + 2) ≤ f + 1) :
    (n + 1) * (z' + 2) ≤ f := by
  have h1 : (n + 1) * (z' + 2) ≤ (n + 1) * (z + 2) :=
    Nat.mul_le_mul_left _ (by omega)
  have h2 : (n + 1) * (z + 2) + (z + 2) = (n + 2) * (z + 2) := by ring
  omega

/-- Fuel adequacy: with fuel at least `(|s| + 1) * (sizeL items + 2)` the
matcher never reports fuel exhaustion, so the canonical `patFuel` wrapper is a
faithful implementation of unbounded backtracking for every embedded pattern. -/
theorem mrunF_adequate :
    ∀ f items prev s acc done, (s.length + 1) * (sizeL items + 2) ≤ f →
      mrunF f items prev s acc done ≠ .out := by
  intro f
  induction f with
  | zero =>
    intro items prev s acc done h
    have h2 : 1 * 2 ≤ (s.length + 1) * (sizeL items + 2) :=
      Nat.mul_le_mul (by omega) (by omega)
    omega
  | succ f ih =>
    intro items prev s acc done h
    cases items with
    | nil => simp [mrunF]
    | cons it rest =>
      cases it with
      | lit ch =>
        cases s with
        | nil => simp [mrunF]
        | cons x t =>
          simp only [mrunF]
          by_cases hx : x = ch
          · rw [if_pos hx]
            exact ih rest (some x) t _ done
              (fuelB (show sizeL rest ≤ sizeL (.lit ch :: rest) by
                  simp only [sizeL]; omega)
                (show (t.length + 2) * (sizeL (.lit ch :: rest) + 2) ≤ f + 1 from h))
          · rw [if_neg hx]
            simp
      | litCI ch =>
        cases s with
        | nil => simp [mrunF]
        | cons x t =>
          simp only [mrunF]
          by_cases hx : eqCI x ch = true
          · rw [if_pos hx]
            exact ih rest (some x) t _ done
              (fuelB (show sizeL rest ≤ sizeL (.litCI ch :: rest) by
                  simp only [sizeL]; omega)
                (show (t.length + 2) * (sizeL (.litCI ch :: rest) + 2) ≤ f + 1 from h))
          · rw [if_neg hx]
            simp
      | cls p =>
        cases s with
        | nil => simp [mrunF]
        | cons x t =>
          simp only [mrunF]
          by_cases hx : p x = true
          · rw [if_pos hx]
            exact ih rest (some x) t _ done
              (fuelB (show sizeL rest ≤ sizeL (.cls p :: rest) by
                  simp only [sizeL]; omega)
                (show (t.length + 2) * (sizeL (.cls p :: rest) + 2) ≤ f + 1 from h))
          · rw [if_neg hx]
            simp
      | starG p =>
        cases s with
        | nil =>
          simp only [mrunF]
          exact ih rest prev [] acc done
            (fuelA (show sizeL rest < sizeL (.starG p :: rest) by
                simp only [sizeL]; omega)
              (show (List.length [] + 1) * (sizeL (.starG p :: rest) + 2) ≤ f + 1 from h))
        | cons x t =>
          simp only [mrunF]
          by_cases hx : p x = true
          · rw [if_pos hx]
            refine orElseR_ne_out ?_ ?_
            · exact ih (.starG p :: rest) (some x) t _ done
                (fuelB (le_refl (sizeL (.starG p :: rest)))
                  (show (t.length + 2) * (sizeL (.starG p :: rest) + 2) ≤ f + 1 from h))
            · exact ih rest prev (x :: t) acc done
                (fuelA (show sizeL rest < sizeL (.starG p :: rest) by
                    simp only [sizeL]; omega)
                  (show ((x :: t).length + 1) * (sizeL (.starG p :: rest) + 2) ≤ f + 1
                    from h))
          · rw [if_neg hx]
            exact ih rest prev (x :: t) acc done
              (fuelA (show sizeL rest < sizeL (.starG p :: rest) by
                  simp only [sizeL]; omega)
                (show ((x :: t).length + 1) * (sizeL (.starG p :: rest) + 2) ≤ f + 1
                  from h))
      | starL p =>
        cases s with
        | nil =>
          simp only [mrunF]
          exact ih rest prev [] acc done
            (fuelA (show sizeL rest < sizeL (.starL p :: rest) by
                simp only [sizeL]; omega)
              (show (List.length [] + 1) * (sizeL (.starL p :: rest) + 2) ≤ f + 1 from h))
        | cons x t =>
          simp only [mrunF]
          refine orElseR_ne_out ?_ ?_
          · exact ih rest prev (x :: t) acc done
              (fuelA (show sizeL rest < sizeL (.starL p :: rest) by
                  simp only [sizeL]; omega)
                (show ((x :: t).length + 1) * (sizeL (.starL p :: rest) + 2) ≤ f + 1
                  from h))
          · by_cases hx : p x = true
            · rw [if_pos hx]
              exact ih (.starL p :: rest) (some x) t _ done
                (fuelB (le_refl (sizeL (.starL p :: rest)))
                  (show (t.length + 2) * (sizeL (.starL p :: rest) + 2) ≤ f + 1 from h))
            · rw [if_neg hx]
              simp
      | repg lo hi p =>
        cases hi with
        | zero =>
          simp only [mrunF]
          by_cases hlo : lo = 0
          · rw [if_pos hlo]
            exact ih rest prev s acc done
              (fuelA (show sizeL rest < sizeL (.repg lo 0 p :: rest) by
                  simp only [sizeL]; omega)
                (show (s.length + 1) * (sizeL (.repg lo 0 p :: rest) + 2) ≤ f + 1 from h))
          · rw [if_neg hlo]
            simp
        | succ hh =>
          cases s with
          | nil =>
            simp only [mrunF]
            by_cases hlo : lo = 0
            · rw [if_pos hlo]
              exact ih rest prev [] acc done
                (fuelA (show sizeL rest < sizeL (.repg lo (hh + 1) p :: rest) by
                    simp only [sizeL]; omega)
                  (show (List.length [] + 1) * (sizeL (.repg lo (hh + 1) p :: rest) + 2)
                      ≤ f + 1 from h))
            · rw [if_neg hlo]
              simp
          | cons x t =>
            simp only [mrunF]
            by_cases hx : p x = true
            · rw [if_pos hx]
              refine orElseR_ne_out ?_ ?_
              · exact ih (.repg (lo - 1) hh p :: rest) (some x) t _ done
                  (fuelB (show sizeL (.repg (lo - 1) hh p :: rest) ≤
                        sizeL (.repg lo (hh + 1) p :: rest) by
                      simp only [sizeL]; omega)
                    (show (t.length + 2) * (sizeL (.repg lo (hh + 1) p :: rest) + 2)
                        ≤ f + 1 from h))
              · by_cases hlo : lo = 0
                · rw [if_pos hlo]
                  exact ih rest prev (x :: t) acc done
                    (fuelA (show sizeL rest < sizeL (.repg lo (hh + 1) p :: rest) by
                        simp only [sizeL]; omega)
                      (show ((x :: t).length + 1) *
                          (sizeL (.repg lo (hh + 1) p :: rest) + 2) ≤ f + 1 from h))
                · rw [if_neg hlo]
                  simp
            · rw [if_neg hx]
              by_cases hlo : lo = 0
              · rw [if_pos hlo]
                exact ih rest prev (x :: t) acc done
                  (fuelA (show sizeL rest < sizeL (.repg lo (hh + 1) p :: rest) by
                      simp only [sizeL]; omega)
                    (show ((x :: t).length + 1) *
                        (sizeL (.repg lo (hh + 1) p :: rest) + 2) ≤ f + 1 from h))
              · rw [if_neg hlo]
                simp
      | opt r =>
        simp only [mrunF]
        refine orElseR_ne_out ?_ ?_
        · exact ih (r ++ rest) prev s acc done
            (fuelA (show sizeL (r ++ rest) < sizeL (.opt r :: rest) by
                rw [sizeL_append]; simp only [sizeL]; omega)
              (show (s.length + 1) * (sizeL (.opt r :: rest) + 2) ≤ f + 1 from h))
        · exact ih rest prev s acc done
            (fuelA (show sizeL rest < sizeL (.opt r :: rest) by
                simp only [sizeL]; omega)
              (show (s.length + 1) * (sizeL (.opt r :: rest) + 2) ≤ f + 1 from h))
      | alt a b =>
        simp only [mrunF]
        refine orElseR_ne_out ?_ ?_
        · exact ih (a ++ rest) prev s acc done
            (fuelA (show sizeL (a ++ rest) < sizeL (.alt a b :: rest) by
                rw [sizeL_append]; simp only [sizeL]; omega)
              (show (s.length + 1) * (sizeL (.alt a b :: rest) + 2) ≤ f + 1 from h))
        · exact ih (b ++ rest) prev s acc done
            (fuelA (show sizeL (b ++ rest) < sizeL (.alt a b :: rest) by
                rw [sizeL_append]; simp only [sizeL]; omega)
              (show (s.length + 1) * (sizeL (.alt a b :: rest) + 2) ≤ f + 1 from h))
      | grp r =>
        simp only [mrunF]
        exact ih (.gbeg :: (r ++ .gend :: rest)) prev s acc done
          (fuelA (show sizeL (.gbeg :: (r ++ .gend :: rest)) < sizeL (.grp r :: rest) by
              simp only [sizeL, sizeL_append]; omega)
            (show (s.length + 1) * (sizeL (.grp r :: rest) + 2) ≤ f + 1 from h))
      | gbeg =>
        simp only [mrunF]
        exact ih rest prev s _ done
          (fuelA (show sizeL rest < sizeL (.gbeg :: rest) by simp only [sizeL]; omega)
            (show (s.length + 1) * (sizeL (.gbeg :: rest) + 2) ≤ f + 1 from h))
      | gend =>
        simp only [mrunF]
        exact ih rest prev s none _
          (fuelA (show sizeL rest < sizeL (.gend :: rest) by simp only [sizeL]; omega)
            (show (s.length + 1) * (sizeL (.gend :: rest) + 2) ≤ f + 1 from h))
      | wb =>
        simp only [mrunF]
        by_cases hb : (isWordO prev != isWordNext s) = true
        · rw [if_pos hb]
          exact ih rest prev s acc done
            (fuelA (show sizeL rest < sizeL (.wb :: rest) by simp only [sizeL]; omega)
              (show (s.length + 1) * (sizeL (.wb :: rest) + 2) ≤ f + 1 from h))
        · rw [if_neg hb]
          simp

/-- The canonical fuel suffices for every pattern of weight at most 198 —
in particular for all nine GRESB patterns and all four Sustainalytics patterns. -/
theorem runPat_adequate (items : List RItem) (h : sizeL items ≤ 198)
    (prev : Option Char) (s : List Char) : runPat items prev s ≠ .out := by
  unfold runPat patFuel
  exact mrunF_adequate _ items prev s none none
    (Nat.mul_le_mul_left _ (by omega))
